import Mathlib

/-!
# Verification of the business forecasting pipeline

Shallow embedding of the pipeline in `scripts/transform.py` and
`scripts/forecast.py`:

* `create_monthly_business_summary` — builds the per-month grid of
  active / new-join / new-drop counts from the cleaned event records;
* `correct_known_data_issues` — applies the two hard-coded drop-count
  corrections (January 2025 → 134, February 2025 → 136) and propagates
  the delta into the active counts of later months;
* `prepare_summary_for_forecast` — clips the summary to the lookback
  window and drops the in-progress current month;
* `generate_business_forecast_from_summary` / `generate_ets_forecast` —
  the forecast engine (methods `simple` and `ets`), derived per-method
  net-change and running active columns, default-method aliasing, and the
  composition of the historical and forecast rows into one sorted table.

Calendar timestamps are modelled as `(year, month, day)` triples compared
lexicographically; a `year_month` month-start timestamp is represented by
its absolute month index `year * 12 + (month - 1)`.  Exact rational
arithmetic stands in for the float arithmetic of pandas, and the
statsmodels exponential-smoothing fit inside `generate_ets_forecast` is
abstracted as an oracle producing the raw (pre-rounding) forecast values.
-/

/-- A calendar date, compared lexicographically (year, month, day). -/
structure Date where
  year : ℕ
  month : ℕ
  day : ℕ
deriving DecidableEq, Repr

/-- Lexicographic `≤` on dates, the order used by pandas timestamp
comparisons. -/
def dateLE (a b : Date) : Bool :=
  decide (a.year < b.year) ||
    (decide (a.year = b.year) &&
      (decide (a.month < b.month) ||
        (decide (a.month = b.month) && decide (a.day ≤ b.day))))

/-- Lexicographic `<` on dates. -/
def dateLT (a b : Date) : Bool :=
  decide (a.year < b.year) ||
    (decide (a.year = b.year) &&
      (decide (a.month < b.month) ||
        (decide (a.month = b.month) && decide (a.day < b.day))))

/-- Leap-year rule of the Gregorian calendar. -/
def isLeapYear (y : ℕ) : Bool :=
  (decide (y % 4 = 0) && decide (y % 100 ≠ 0)) || decide (y % 400 = 0)

/-- Number of days of a calendar month; this is the day component of the
`month_start + DateOffset(months=1) - DateOffset(days=1)` timestamp used in
`create_monthly_business_summary`. -/
def daysInMonth (y m : ℕ) : ℕ :=
  if m = 2 then (if isLeapYear y then 29 else 28)
  else if m = 4 ∨ m = 6 ∨ m = 9 ∨ m = 11 then 30
  else 31

/-- Absolute index of the month `(y, m)`: `y * 12 + (m - 1)`. The
`year_month` month-start timestamps of the summary are represented by this
index. -/
def monthIdxOf (y m : ℕ) : ℕ := y * 12 + (m - 1)

/-- The first-of-month timestamp of the month with absolute index `idx`
(`month_start` in `create_monthly_business_summary`). -/
def monthStart (idx : ℕ) : Date := ⟨idx / 12, idx % 12 + 1, 1⟩

/-- The last-day timestamp of the month with absolute index `idx`
(`month_end = month_start + DateOffset(months=1) - DateOffset(days=1)`). -/
def monthEnd (idx : ℕ) : Date :=
  ⟨idx / 12, idx % 12 + 1, daysInMonth (idx / 12) (idx % 12 + 1)⟩

/-- One cleaned event record: `date_accredited` is non-null after
`clean_business_data`, `date_dropped` may be null. -/
structure Record where
  date_accredited : Date
  date_dropped : Option Date
deriving DecidableEq, Repr

/-- One row of the monthly business summary.  `monthIdx` stands for the
`year_month` month-start timestamp; `year`, `month`, `active`, `newJoins`
and `newDrops` are the `year`, `month`, `active_businesses`, `new_joins`
and `new_drops` columns. -/
structure SRow where
  monthIdx : ℕ
  year : ℕ
  month : ℕ
  active : ℤ
  newJoins : ℤ
  newDrops : ℤ
deriving DecidableEq, Repr

/-- The membership test of `create_monthly_business_summary` (lines
225–228): joined on or before the end of the month, and either never
dropped or dropped strictly after the month start. -/
def isActiveIn (idx : ℕ) (r : Record) : Bool :=
  dateLE r.date_accredited (monthEnd idx) &&
    (match r.date_dropped with
     | none => true
     | some d => dateLT (monthStart idx) d)

/-- Absolute month index of the month a date falls in (`dt.to_period('M')`). -/
def monthIdxOfDate (d : Date) : ℕ := monthIdxOf d.year d.month

/-- The complete month grid of `create_monthly_business_summary`:
`pd.date_range(start=Timestamp(start_year, 1, 1), end=current_month_start,
freq='MS')`, as a list of absolute month indices. -/
def gridIdx (startYear : ℕ) (now : Date) : List ℕ :=
  let s := monthIdxOf startYear 1
  let e := monthIdxOf now.year now.month
  (List.range (e + 1 - s)).map (· + s)

/-- `create_monthly_business_summary` from `scripts/transform.py`: one row
per grid month, with the month's join count, drop count and
point-in-time active count.  `now` is `datetime.now()`. -/
def create_monthly_business_summary (records : List Record) (start_year : ℕ)
    (now : Date) : List SRow :=
  (gridIdx start_year now).map fun idx =>
    { monthIdx := idx
      year := idx / 12
      month := idx % 12 + 1
      active := (records.countP (isActiveIn idx) : ℤ)
      newJoins := (records.countP (fun r => monthIdxOfDate r.date_accredited == idx) : ℤ)
      newDrops := (records.countP (fun r =>
        match r.date_dropped with
        | some d => monthIdxOfDate d == idx
        | none => false) : ℤ) }

/-- Index of the first list element satisfying `p`
(`df[mask].index` followed by `idx[0]` in pandas). -/
def findFirstIdx (p : α → Bool) : List α → Option ℕ
  | [] => none
  | x :: xs => if p x then some 0 else (findFirstIdx p xs).map (· + 1)

/-- One correction block of `correct_known_data_issues`: locate the first
row whose `year`/`month` columns match the target, overwrite its
`new_drops` with the corrected value, and subtract
`diff = corrected - original` from `active_businesses` of every row whose
`year_month` lies strictly after the target month start.  If the target
month is absent the summary is returned unchanged. -/
def applyCorrection (ty tm : ℕ) (corrected : ℤ) (rows : List SRow) : List SRow :=
  match findFirstIdx (fun r => decide (r.year = ty) && decide (r.month = tm)) rows with
  | none => rows
  | some i =>
    match rows[i]? with
    | none => rows
    | some t =>
      let diff := corrected - t.newDrops
      (rows.set i { t with newDrops := corrected }).map fun r =>
        if monthIdxOf ty tm < r.monthIdx then { r with active := r.active - diff }
        else r

/-- `correct_known_data_issues` from `scripts/transform.py`: the January
2025 block (drops → 134) followed by the February 2025 block
(drops → 136), applied to a copy of the input. -/
def correct_known_data_issues (monthly_summary : List SRow) : List SRow :=
  applyCorrection 2025 2 136 (applyCorrection 2025 1 134 monthly_summary)

/-- Object state of one `correct_known_data_issues` call: the dataframe
object passed in by the caller and the working copy. -/
structure CorrectState where
  input : List SRow
  corrected : List SRow
deriving DecidableEq, Repr

/-- Line 308: `corrected_df = monthly_summary_df.copy()` — the working
object starts as a fresh copy of the input object. -/
def correctInit (s : List SRow) : CorrectState := ⟨s, s⟩

/-- Lines 311–331: the January 2025 block writes only through
`corrected_df`. -/
def correctStepJan (st : CorrectState) : CorrectState :=
  { st with corrected := applyCorrection 2025 1 134 st.corrected }

/-- Lines 333–352: the February 2025 block writes only through
`corrected_df`. -/
def correctStepFeb (st : CorrectState) : CorrectState :=
  { st with corrected := applyCorrection 2025 2 136 st.corrected }

/-- The full `correct_known_data_issues` call as a transformation of the
two dataframe objects: final state of the caller's object and of the
returned object. -/
def correct_known_data_issues_run (s : List SRow) : CorrectState :=
  correctStepFeb (correctStepJan (correctInit s))

/-- `≤` on summary rows by `year_month` (the `sort_values('year_month')`
key). -/
def srowLE (a b : SRow) : Prop := a.monthIdx ≤ b.monthIdx

instance : DecidableRel srowLE := fun a b => Nat.decLe a.monthIdx b.monthIdx

instance : IsTotal SRow srowLE := ⟨fun a b => Nat.le_total a.monthIdx b.monthIdx⟩

instance : IsTrans SRow srowLE := ⟨fun _ _ _ h h' => Nat.le_trans h h'⟩

/-- `prepare_summary_for_forecast` from `scripts/transform.py`: keep the
rows between the lookback cutoff (`now - DateOffset(years=lookback_years)`,
at day granularity, with the day clamped into the target month) and the
first day of the current month (exclusive), sorted by `year_month`. -/
def prepare_summary_for_forecast (monthly_summary : List SRow)
    (lookback_years : ℕ) (now : Date) : List SRow :=
  let cy := now.year - lookback_years
  let cutoff : Date := ⟨cy, now.month, min now.day (daysInMonth cy now.month)⟩
  let nowIdx := monthIdxOf now.year now.month
  List.insertionSort srowLE
    (monthly_summary.filter fun r =>
      dateLE cutoff (monthStart r.monthIdx) && decide (r.monthIdx < nowIdx))

/-- One row of the combined historical + forecast table.  Columns that a
given run never writes stay `none` (pandas `NaN`): the `simple_*` / `ets_*`
columns exist only when the method was requested, the unqualified
`new_joins` / `new_drops` / `net_change` / `active_businesses` values of a
forecast row only after default-method aliasing. -/
structure FRow where
  monthIdx : ℕ
  year : ℕ
  month : ℕ
  isForecast : Bool
  active_businesses : Option ℤ
  new_joins : Option ℤ
  new_drops : Option ℤ
  net_change : Option ℤ
  simple_joins : Option ℤ
  simple_drops : Option ℤ
  simple_net_change : Option ℤ
  simple_active : Option ℤ
  ets_joins : Option ℤ
  ets_drops : Option ℤ
  ets_net_change : Option ℤ
  ets_active : Option ℤ
deriving DecidableEq, Repr

/-- An historical summary row as it appears in the combined table:
`is_forecast = False`, forecast-method columns `NaN`. -/
def histToFRow (r : SRow) : FRow :=
  { monthIdx := r.monthIdx, year := r.year, month := r.month
    isForecast := false
    active_businesses := some r.active
    new_joins := some r.newJoins
    new_drops := some r.newDrops
    net_change := none
    simple_joins := none, simple_drops := none
    simple_net_change := none, simple_active := none
    ets_joins := none, ets_drops := none
    ets_net_change := none, ets_active := none }

/-- `≤` on combined rows by `year_month`. -/
def frowLE (a b : FRow) : Prop := a.monthIdx ≤ b.monthIdx

instance : DecidableRel frowLE := fun a b => Nat.decLe a.monthIdx b.monthIdx

instance : IsTotal FRow frowLE := ⟨fun a b => Nat.le_total a.monthIdx b.monthIdx⟩

instance : IsTrans FRow frowLE := ⟨fun _ _ _ h h' => Nat.le_trans h h'⟩

/-- Round half to even, the rounding of Python's `round` and NumPy's
`np.round`. -/
def roundHalfEven (q : ℚ) : ℤ :=
  if q - (⌊q⌋ : ℚ) < 1/2 then ⌊q⌋
  else if 1/2 < q - (⌊q⌋ : ℚ) then ⌊q⌋ + 1
  else if ⌊q⌋ % 2 = 0 then ⌊q⌋ else ⌊q⌋ + 1

/-- Arithmetic mean of a column (`Series.mean`), as an exact rational. -/
def meanQ (l : List ℤ) : ℚ := (l.sum : ℚ) / (l.length : ℚ)

/-- The fitted exponential-smoothing models of `generate_ets_forecast`,
abstracted: given the prepared historical rows, the raw (pre-rounding)
point forecast for each future period of the joins and drops series.  The
statsmodels model selection and fitting is numerical optimisation over
floats and is not reproduced; everything downstream of the raw forecasts
is taken from the source. -/
structure EtsOracle where
  rawJoins : List SRow → ℕ → ℚ
  rawDrops : List SRow → ℕ → ℚ

/-- `generate_ets_forecast` from `scripts/forecast.py`, lines 271–277: the
raw model forecasts are rounded to the nearest integer (`np.round`), cast
to int, and clamped to be non-negative (`np.maximum(.., 0)`). -/
def generate_ets_forecast (oracle : EtsOracle) (data : List SRow)
    (forecast_periods : ℕ) : List ℤ × List ℤ :=
  ((List.range forecast_periods).map fun i =>
      max (roundHalfEven (oracle.rawJoins data i)) 0,
   (List.range forecast_periods).map fun i =>
      max (roundHalfEven (oracle.rawDrops data i)) 0)

/-- The `simple` method of `generate_business_forecast_from_summary`
(lines 56–90) for one target calendar month number `m`: average the
joins/drops of the historical rows sharing that month number, scale by the
trend factor (mean of the last 12 rows over the mean of all rows, taken as
1 when the overall mean is not positive), and round; with no matching
historical month, round the overall means instead. -/
def simpleForecastFor (data : List SRow) (m : ℕ) : ℤ × ℤ :=
  let same := data.filter fun r => decide (r.month = m)
  if 0 < same.length then
    let avgJ := meanQ (same.map (·.newJoins))
    let avgD := meanQ (same.map (·.newDrops))
    let recent := data.drop (data.length - 12)
    let p :=
      if 0 < recent.length then
        let recentAvgJ := meanQ (recent.map (·.newJoins))
        let recentAvgD := meanQ (recent.map (·.newDrops))
        let allAvgJ := meanQ (data.map (·.newJoins))
        let allAvgD := meanQ (data.map (·.newDrops))
        let joinTrendFactor := if 0 < allAvgJ then recentAvgJ / allAvgJ else 1
        let dropTrendFactor := if 0 < allAvgD then recentAvgD / allAvgD else 1
        (avgJ * joinTrendFactor, avgD * dropTrendFactor)
      else (avgJ, avgD)
    (roundHalfEven p.1, roundHalfEven p.2)
  else
    (roundHalfEven (meanQ (data.map (·.newJoins))),
     roundHalfEven (meanQ (data.map (·.newDrops))))

/-- The `{method}_joins` column of a row, `none` when the column does not
exist. -/
def methodJoins (m : String) (r : FRow) : Option ℤ :=
  if m = "simple" then r.simple_joins else if m = "ets" then r.ets_joins else none

/-- The `{method}_drops` column of a row. -/
def methodDrops (m : String) (r : FRow) : Option ℤ :=
  if m = "simple" then r.simple_drops else if m = "ets" then r.ets_drops else none

/-- The `{method}_net_change` column of a row. -/
def methodNet (m : String) (r : FRow) : Option ℤ :=
  if m = "simple" then r.simple_net_change
  else if m = "ets" then r.ets_net_change else none

/-- The `{method}_active` column of a row. -/
def methodActive (m : String) (r : FRow) : Option ℤ :=
  if m = "simple" then r.simple_active
  else if m = "ets" then r.ets_active else none

/-- Write the `{method}_net_change` column of a row. -/
def setMethodNet (m : String) (v : Option ℤ) (r : FRow) : FRow :=
  if m = "simple" then { r with simple_net_change := v }
  else if m = "ets" then { r with ets_net_change := v } else r

/-- Write the `{method}_active` column of a row. -/
def setMethodActive (m : String) (v : Option ℤ) (r : FRow) : FRow :=
  if m = "simple" then { r with simple_active := v }
  else if m = "ets" then { r with ets_active := v } else r

/-- Strict combination of two column values, propagating `NaN`. -/
def omap2 (f : ℤ → ℤ → ℤ) : Option ℤ → Option ℤ → Option ℤ
  | some a, some b => some (f a b)
  | _, _ => none

/-- Lines 98–102: write `ets_joins[i]` / `ets_drops[i]` onto the forecast
row at position `i`, for every `i` below the forecast length. -/
def etsFill (ej ed : List ℤ) : ℕ → List FRow → List FRow
  | _, [] => []
  | i, r :: rs =>
    { r with ets_joins := ej[i]?, ets_drops := ed[i]? } :: etsFill ej ed (i + 1) rs

/-- Lines 121–126: the running `{method}_active` column, threaded through
the forecast rows from `prev_active`. -/
def fillActive (m : String) : Option ℤ → List FRow → List FRow
  | _, [] => []
  | prev, r :: rs =>
    let cur := omap2 (· + ·) prev (methodNet m r)
    setMethodActive m cur r :: fillActive m cur rs

/-- Lines 110–126 for one method: `{method}_net_change =
{method}_joins - {method}_drops` on every forecast row, then the running
`{method}_active` seeded from the last historical active count. -/
def applyNetActive (m : String) (seed : ℤ) (rows : List FRow) : List FRow :=
  fillActive m (some seed)
    (rows.map fun r =>
      setMethodNet m (omap2 (· - ·) (methodJoins m r) (methodDrops m r)) r)

/-- Whether the `{m}_joins` / `{m}_drops` columns exist in the forecast
rows (`join_col in forecast_rows.columns`): the method must have been
requested, be one of the two implemented methods, and at least one
forecast row must have been written. -/
def colsExist (methods : List String) (forecast_periods : ℕ) (m : String) : Bool :=
  ((decide (m = "simple") && decide ("simple" ∈ methods)) ||
      (decide (m = "ets") && decide ("ets" ∈ methods))) &&
    decide (0 < forecast_periods)

/-- Strict `<` on combined rows by `year_month`. -/
def frowLT (a b : FRow) : Prop := a.monthIdx < b.monthIdx

/-- `last_date`: the maximum `year_month` of the prepared data, as the
month index (`forecast_df['year_month'].max()`). -/
def lastHistIdx (data : List SRow) : ℕ := (data.map (·.monthIdx)).foldl max 0

/-- Lines 40–53: the empty forecast rows — `forecast_periods` consecutive
months immediately following the last historical month, flagged
`is_forecast = True`, all other columns still unwritten. -/
def forecastBase (lastIdx forecast_periods : ℕ) : List FRow :=
  (List.range forecast_periods).map fun i =>
    { monthIdx := lastIdx + 1 + i
      year := (lastIdx + 1 + i) / 12
      month := (lastIdx + 1 + i) % 12 + 1
      isForecast := true
      active_businesses := none, new_joins := none
      new_drops := none, net_change := none
      simple_joins := none, simple_drops := none
      simple_net_change := none, simple_active := none
      ets_joins := none, ets_drops := none
      ets_net_change := none, ets_active := none }

/-- Lines 55–90: when `simple` is requested, write its joins/drops
forecast onto every forecast row. -/
def simpleStage (data : List SRow) (methods : List String)
    (rows : List FRow) : List FRow :=
  if "simple" ∈ methods then
    rows.map fun r =>
      let jd := simpleForecastFor data r.month
      { r with simple_joins := some jd.1, simple_drops := some jd.2 }
  else rows

/-- Lines 92–102: when `ets` is requested, run `generate_ets_forecast`
and write its values positionally onto the forecast rows. -/
def etsStage (oracle : EtsOracle) (data : List SRow) (methods : List String)
    (forecast_periods : ℕ) (rows : List FRow) : List FRow :=
  if "ets" ∈ methods then
    let ejd := generate_ets_forecast oracle data forecast_periods
    etsFill ejd.1 ejd.2 0 rows
  else rows

/-- Lines 104–134: for each requested method whose columns exist, derive
`net_change` and the running `active` column. -/
def netActiveStage (methods : List String) (forecast_periods : ℕ) (seed : ℤ)
    (rows : List FRow) : List FRow :=
  methods.foldl
    (fun acc m =>
      if colsExist methods forecast_periods m then applyNetActive m seed acc
      else acc)
    rows

/-- Lines 140–143: copy one method's four columns onto the unqualified
column names. -/
def aliasRow (d : String) (r : FRow) : FRow :=
  { r with new_joins := methodJoins d r
           new_drops := methodDrops d r
           net_change := methodNet d r
           active_businesses := methodActive d r }

/-- Lines 136–143: backward-compatibility aliasing of the first requested
method, when its columns exist. -/
def aliasStage (methods : List String) (forecast_periods : ℕ) (d : String)
    (rows : List FRow) : List FRow :=
  if colsExist methods forecast_periods d then rows.map (aliasRow d) else rows

/-- The forecast rows after the method fills (lines 40–102): base grid
plus the `simple` and `ets` joins/drops columns. -/
def stagedRows (oracle : EtsOracle) (data : List SRow)
    (forecast_periods : ℕ) (methods : List String) : List FRow :=
  etsStage oracle data methods forecast_periods
    (simpleStage data methods
      (forecastBase (lastHistIdx data) forecast_periods))

/-- `last_actual_count`: the active count of the last prepared historical
row (`forecast_df['active_businesses'].iloc[-1]`). -/
def lastActualOf (data : List SRow) : ℤ :=
  ((data.getLast?).map (·.active)).getD 0

/-- The finished forecast rows: base grid, then the `simple` and `ets`
fills, the per-method net/active derivation seeded from the last
historical active count, and default-method aliasing. -/
def forecastRowsOf (oracle : EtsOracle) (data : List SRow)
    (forecast_periods : ℕ) (methods : List String) (d : String) : List FRow :=
  aliasStage methods forecast_periods d
    (netActiveStage methods forecast_periods (lastActualOf data)
      (stagedRows oracle data forecast_periods methods))

/-- `generate_business_forecast_from_summary` from `scripts/forecast.py`:
prepare the historical data, build the forecast rows for the requested
methods (`simple` and/or `ets`; other method strings produce nothing),
and return the concatenation of historical and forecast rows sorted by
`year_month`.  Returns `none` on the failure paths of the source: no
historical rows after preparation, or an empty methods list. -/
def generate_business_forecast_from_summary (oracle : EtsOracle)
    (monthly_summary : List SRow) (forecast_periods lookback_years : ℕ)
    (methods : List String) (now : Date) : Option (List FRow) :=
  let data := prepare_summary_for_forecast monthly_summary lookback_years now
  if data.isEmpty then none
  else
    match methods with
    | [] => none
    | default_method :: _ =>
      some (List.insertionSort frowLE (data.map histToFRow ++
        forecastRowsOf oracle data forecast_periods methods default_method))

/-- The active-membership predicate in the words of the specification: the
record's active-since date is on or before the last day of the month and
its ceased-on date is either null or strictly after the first day of the
month. -/
def activeSpec (idx : ℕ) (r : Record) : Bool :=
  dateLE r.date_accredited (monthEnd idx) &&
    (decide (r.date_dropped = none) ||
      (r.date_dropped.map (fun d => dateLT (monthStart idx) d)).getD false)

/-- A method's four per-method columns are all populated on a row. -/
def methodPopulated (m : String) (r : FRow) : Bool :=
  (methodJoins m r).isSome && (methodDrops m r).isSome &&
    (methodNet m r).isSome && (methodActive m r).isSome

/-- A trivial exponential-smoothing oracle (all raw forecasts zero), used
to instantiate the engine on concrete inputs. -/
def zeroOracle : EtsOracle := ⟨fun _ _ => 0, fun _ _ => 0⟩

/-- A two-month historical summary inside the lookback window of
`sampleNow`. -/
def sampleSummary : List SRow :=
  [⟨24307, 2025, 8, 100, 10, 5⟩, ⟨24308, 2025, 9, 105, 10, 5⟩]

/-- A summary whose months are not unique (the duplicated August 2025
row), used to exercise the absent contiguity validation. -/
def dupSummary : List SRow :=
  [⟨24307, 2025, 8, 100, 10, 5⟩, ⟨24307, 2025, 8, 100, 10, 5⟩]

/-- The "current" timestamp used with the sample summaries. -/
def sampleNow : Date := ⟨2025, 10, 12⟩

/-- A four-month summary around January 2025 with a stored January drops
value of 154 and a January active count of 1000, used for the correction
claims. -/
def corrSummary : List SRow :=
  [⟨24299, 2024, 12, 950, 10, 5⟩,
   ⟨24300, 2025, 1, 1000, 10, 154⟩,
   ⟨24301, 2025, 2, 1005, 10, 5⟩,
   ⟨24302, 2025, 3, 1010, 10, 5⟩]

/-- Pointwise agreement of the source's membership test with the
specification's wording of the active predicate. -/
theorem isActiveIn_eq_activeSpec (idx : ℕ) (r : Record) :
    isActiveIn idx r = activeSpec idx r := by
  cases hd : r.date_dropped <;> simp [isActiveIn, activeSpec, hd]

/-- C1: for every cleaned record set and every month of the summary
produced by `create_monthly_business_summary`, the month's active count
equals the number of records whose active-since date is on or before the
last day of the month and whose ceased-on date is null or strictly after
the first day of the month. -/
theorem C1_active_count_matches_membership (records : List Record)
    (start_year : ℕ) (now : Date) (row : SRow)
    (hrow : row ∈ create_monthly_business_summary records start_year now) :
    row.active = ((records.filter (activeSpec row.monthIdx)).length : ℤ) := by
  simp only [create_monthly_business_summary, List.mem_map] at hrow
  obtain ⟨idx, -, rfl⟩ := hrow
  show (records.countP (isActiveIn idx) : ℤ) =
    ((records.filter (activeSpec idx)).length : ℤ)
  rw [← List.countP_eq_length_filter]
  norm_cast
  exact List.countP_congr fun r _ => by rw [isActiveIn_eq_activeSpec]

/-- Witness for C1 at a concrete record set and month. -/
theorem C1_witness :
    (⟨24290, 2024, 3, 1, 1, 0⟩ : SRow) ∈ create_monthly_business_summary
        [⟨⟨2024, 3, 15⟩, none⟩] 2024 ⟨2024, 4, 10⟩ ∧
      (⟨24290, 2024, 3, 1, 1, 0⟩ : SRow).active =
        (([(⟨⟨2024, 3, 15⟩, none⟩ : Record)].filter
          (activeSpec (⟨24290, 2024, 3, 1, 1, 0⟩ : SRow).monthIdx)).length : ℤ) :=
  ⟨by decide,
   C1_active_count_matches_membership [⟨⟨2024, 3, 15⟩, none⟩] 2024 ⟨2024, 4, 10⟩
     ⟨24290, 2024, 3, 1, 1, 0⟩ (by decide)⟩

/-- C9: the months of the summary are exactly the grid from January of
`start_year` through the first day of the current month — independent of
the records — and that grid is strictly increasing and gap-free; every row
carries the year and month number of its own month index (i.e. its
`year_month` is a first-of-month date). -/
theorem C9_month_grid (records : List Record) (start_year : ℕ) (now : Date) :
    (create_monthly_business_summary records start_year now).map (·.monthIdx)
        = gridIdx start_year now
    ∧ (∀ i, i + 1 < (gridIdx start_year now).length →
        ∃ a, (gridIdx start_year now)[i]? = some a ∧
          (gridIdx start_year now)[i + 1]? = some (a + 1))
    ∧ (∀ row ∈ create_monthly_business_summary records start_year now,
        row.year = row.monthIdx / 12 ∧ row.month = row.monthIdx % 12 + 1)
    ∧ (monthIdxOf start_year 1 ≤ monthIdxOf now.year now.month →
        (gridIdx start_year now).head? = some (monthIdxOf start_year 1) ∧
        (gridIdx start_year now).getLast? = some (monthIdxOf now.year now.month)) := by
  refine ⟨?_, ?_, ?_, ?_⟩
  · simp [create_monthly_business_summary, List.map_map, Function.comp_def]
  · intro i h
    simp only [gridIdx, List.length_map, List.length_range] at h
    refine ⟨i + monthIdxOf start_year 1, ?_, ?_⟩ <;>
      · simp [gridIdx, List.getElem?_map, List.getElem?_range, h,
          Nat.lt_of_succ_lt h]
        try omega
  · intro row hrow
    simp only [create_monthly_business_summary, List.mem_map] at hrow
    obtain ⟨idx, -, rfl⟩ := hrow
    exact ⟨rfl, rfl⟩
  · intro hle
    have h0 : 0 < monthIdxOf now.year now.month + 1 - monthIdxOf start_year 1 := by
      omega
    have hlen : (gridIdx start_year now).length =
        monthIdxOf now.year now.month + 1 - monthIdxOf start_year 1 := by
      simp [gridIdx]
    constructor
    · rw [List.head?_eq_getElem?]
      simp [gridIdx, List.getElem?_map, List.getElem?_range, h0]
    · rw [List.getLast?_eq_getElem?, hlen]
      have h1 : monthIdxOf now.year now.month + 1 - monthIdxOf start_year 1 - 1 <
          monthIdxOf now.year now.month + 1 - monthIdxOf start_year 1 := by omega
      simp [gridIdx, List.getElem?_map, List.getElem?_range, h1]
      omega

/-- Witness for C9 at a concrete start year and current date. -/
theorem C9_witness :
    (gridIdx 2024 ⟨2025, 10, 12⟩).head? = some (monthIdxOf 2024 1) ∧
      (gridIdx 2024 ⟨2025, 10, 12⟩).getLast? =
        some (monthIdxOf (⟨2025, 10, 12⟩ : Date).year (⟨2025, 10, 12⟩ : Date).month) :=
  (C9_month_grid [] 2024 ⟨2025, 10, 12⟩).2.2.2 (by decide)

/-- If `findFirstIdx` returns `i`, position `i` holds an element
satisfying the predicate. -/
theorem findFirstIdx_some {p : α → Bool} {l : List α} {i : ℕ}
    (h : findFirstIdx p l = some i) : ∃ x, l[i]? = some x ∧ p x = true := by
  induction l generalizing i with
  | nil => simp [findFirstIdx] at h
  | cons x xs ih =>
    by_cases hp : p x
    · simp only [findFirstIdx, hp, if_pos] at h
      obtain rfl : (0 : ℕ) = i := Option.some.inj h
      exact ⟨x, by simp, hp⟩
    · simp only [findFirstIdx, hp, if_neg, Bool.false_eq_true, not_false_iff,
        Option.map_eq_some'] at h
      obtain ⟨j, hj, rfl⟩ := h
      obtain ⟨y, hy, hpy⟩ := ih hj
      exact ⟨y, by simpa using hy, hpy⟩

/-- `findFirstIdx` is unchanged by mapping a function that preserves the
predicate. -/
theorem findFirstIdx_map_eq {p : α → Bool} (f : α → α)
    (hf : ∀ x, p (f x) = p x) (l : List α) :
    findFirstIdx p (l.map f) = findFirstIdx p l := by
  induction l with
  | nil => rfl
  | cons x xs ih => simp [findFirstIdx, hf, ih]

/-- `findFirstIdx` is unchanged by overwriting a position with an element
on which the predicate agrees. -/
theorem findFirstIdx_set_eq {p : α → Bool} {l : List α} {i : ℕ} {a x : α}
    (hx : l[i]? = some x) (hpa : p a = p x) :
    findFirstIdx p (l.set i a) = findFirstIdx p l := by
  induction l generalizing i with
  | nil => simp at hx
  | cons y ys ih =>
    cases i with
    | zero =>
      obtain rfl : y = x := by simpa using hx
      simp [findFirstIdx, hpa]
    | succ n =>
      have hx' : ys[n]? = some x := by simpa using hx
      simp [findFirstIdx, ih hx']

/-- Overwriting a position with the element already there changes
nothing. -/
theorem set_self_of_getElem? {l : List α} {i : ℕ} {x : α}
    (h : l[i]? = some x) : l.set i x = l := by
  induction l generalizing i with
  | nil => rfl
  | cons y ys ih =>
    cases i with
    | zero =>
      obtain rfl : y = x := by simpa using h
      rfl
    | succ n =>
      have h' : ys[n]? = some x := by simpa using h
      simp [ih h']

/-- Structure update writing the value a field already holds is the
identity. -/
theorem srow_setDrops_self (x : SRow) (v : ℤ) (h : x.newDrops = v) :
    { x with newDrops := v } = x := by
  cases x
  cases h
  rfl

/-- When the target month is found, `applyCorrection` is the
set-the-drops-then-shift-later-actives transformation. -/
theorem applyCorrection_eq (ty tm : ℕ) (c : ℤ) (rows : List SRow) (i : ℕ)
    (t : SRow)
    (hfind : findFirstIdx
      (fun r => decide (r.year = ty) && decide (r.month = tm)) rows = some i)
    (ht : rows[i]? = some t) :
    applyCorrection ty tm c rows =
      (rows.set i { t with newDrops := c }).map fun r =>
        if monthIdxOf ty tm < r.monthIdx then
          { r with active := r.active - (c - t.newDrops) }
        else r := by
  simp only [applyCorrection, hfind, ht]

/-- A second application of the same correction computes a zero delta
against the already-corrected stored value and changes nothing. -/
theorem applyCorrection_idem (ty tm : ℕ) (c : ℤ) (rows : List SRow) (i : ℕ)
    (t : SRow)
    (hfind : findFirstIdx
      (fun r => decide (r.year = ty) && decide (r.month = tm)) rows = some i)
    (ht : rows[i]? = some t) :
    applyCorrection ty tm c (applyCorrection ty tm c rows) =
      applyCorrection ty tm c rows := by
  have hlen : i < rows.length := by
    by_contra hge
    rw [List.getElem?_eq_none (Nat.le_of_not_lt hge)] at ht
    exact Option.noConfusion ht
  rw [applyCorrection_eq ty tm c rows i t hfind ht]
  set adj : SRow → SRow := fun r =>
    if monthIdxOf ty tm < r.monthIdx then
      { r with active := r.active - (c - t.newDrops) }
    else r with hadj
  set t' : SRow := { t with newDrops := c } with ht'
  have hadj_p : ∀ x : SRow,
      (decide ((adj x).year = ty) && decide ((adj x).month = tm)) =
        (decide (x.year = ty) && decide (x.month = tm)) := by
    intro x
    simp only [hadj]
    by_cases h : monthIdxOf ty tm < x.monthIdx <;> simp [h]
  have hfind' : findFirstIdx
      (fun r => decide (r.year = ty) && decide (r.month = tm))
      ((rows.set i t').map adj) = some i := by
    rw [findFirstIdx_map_eq adj hadj_p, findFirstIdx_set_eq ht (by rfl), hfind]
  have hget' : ((rows.set i t').map adj)[i]? = some (adj t') := by
    rw [List.getElem?_map, List.getElem?_set]
    simp [hlen]
  have hdrops : (adj t').newDrops = c := by
    simp only [hadj]
    by_cases h : monthIdxOf ty tm < t'.monthIdx <;> simp [h, ht']
  rw [applyCorrection_eq ty tm c _ i (adj t') hfind' hget',
    srow_setDrops_self _ _ hdrops, set_self_of_getElem? hget', hdrops]
  have hid : ∀ r : SRow,
      (if monthIdxOf ty tm < r.monthIdx then
        { r with active := r.active - (c - c) } else r) = r := by
    intro r
    by_cases h : monthIdxOf ty tm < r.monthIdx <;> simp [h]
  rw [List.map_congr_left fun a _ => hid a]
  simp [Function.comp_def]

/-- C2: applying a correction rule to a summary containing its target
month sets that month's `new_drops` to the corrected value, changes the
active count by the signed delta (corrected minus currently stored
`new_drops`, subtracted) for every month strictly after the target month
and for no earlier month (nor for the target itself), and is idempotent:
reapplying the identical rule computes delta 0 against the currently
stored value and changes nothing. -/
theorem C2_correction_rule (ty tm : ℕ) (c : ℤ) (rows : List SRow) (i : ℕ)
    (t : SRow)
    (hcons : ∀ r ∈ rows, r.monthIdx = monthIdxOf r.year r.month)
    (hfind : findFirstIdx
      (fun r => decide (r.year = ty) && decide (r.month = tm)) rows = some i)
    (ht : rows[i]? = some t) :
    ((applyCorrection ty tm c rows)[i]? = some { t with newDrops := c })
    ∧ (∀ (j : ℕ) (r : SRow), rows[j]? = some r → monthIdxOf ty tm < r.monthIdx →
        (applyCorrection ty tm c rows)[j]? =
          some { r with active := r.active - (c - t.newDrops) })
    ∧ (∀ (j : ℕ) (r : SRow), rows[j]? = some r → r.monthIdx ≤ monthIdxOf ty tm → j ≠ i →
        (applyCorrection ty tm c rows)[j]? = some r)
    ∧ applyCorrection ty tm c (applyCorrection ty tm c rows)
        = applyCorrection ty tm c rows := by
  have hlen : i < rows.length := by
    by_contra hge
    rw [List.getElem?_eq_none (Nat.le_of_not_lt hge)] at ht
    exact Option.noConfusion ht
  obtain ⟨x, hx, hpx⟩ := findFirstIdx_some hfind
  rw [ht] at hx
  obtain rfl : t = x := Option.some.inj hx
  have hty : t.year = ty ∧ t.month = tm := by simpa using hpx
  have htm : t.monthIdx = monthIdxOf ty tm := by
    rw [hcons t (List.getElem?_mem ht), hty.1, hty.2]
  refine ⟨?_, ?_, ?_, applyCorrection_idem ty tm c rows i t hfind ht⟩
  · rw [applyCorrection_eq ty tm c rows i t hfind ht, List.getElem?_map,
      List.getElem?_set]
    simp [hlen, htm]
  · intro j r hjr hafter
    have hji : ¬ (i = j) := by
      intro hj
      subst hj
      rw [ht] at hjr
      obtain rfl : t = r := Option.some.inj hjr
      rw [htm] at hafter
      exact lt_irrefl _ hafter
    rw [applyCorrection_eq ty tm c rows i t hfind ht, List.getElem?_map,
      List.getElem?_set, if_neg hji, hjr]
    simp [hafter]
  · intro j r hjr hbefore hji
    rw [applyCorrection_eq ty tm c rows i t hfind ht, List.getElem?_map,
      List.getElem?_set, if_neg (fun h => hji h.symm), hjr]
    simp [Nat.not_lt.mpr hbefore]

/-- Witness for C2 at the concrete four-month summary: the January 2025
rule rewrites the stored drops (154 → 134) and reapplying it is a
no-op. -/
theorem C2_witness :
    (applyCorrection 2025 1 134 corrSummary)[1]? =
        some (⟨24300, 2025, 1, 1000, 10, 134⟩ : SRow) ∧
      applyCorrection 2025 1 134 (applyCorrection 2025 1 134 corrSummary)
        = applyCorrection 2025 1 134 corrSummary := by
  have h := C2_correction_rule 2025 1 134 corrSummary 1
    ⟨24300, 2025, 1, 1000, 10, 154⟩ (by decide) (by decide) (by decide)
  exact ⟨h.1, h.2.2.2⟩

/-- Counterexample to C3 as stated: on a summary holding January 2025
active count 1000 and stored drops 154, the rule `new_drops → 134`
reduces that month's drops by 20, yet the resulting active counts are
`[950, 1000, 1025, 1030]` — the target month's active count is unchanged
and later months *increase* by 20 — not the claimed decrease by 20 of the
target and all later months (`[950, 980, 985, 990]`). -/
theorem C3_counterexample :
    (134 : ℤ) = (((corrSummary[1]?).map (·.newDrops)).getD 0) - 20 ∧
      (applyCorrection 2025 1 134 corrSummary).map (·.active)
        = [950, 1000, 1025, 1030] ∧
      ¬ ((applyCorrection 2025 1 134 corrSummary).map (·.active)
        = [950, 980, 985, 990]) := by
  decide

/-- C3 (amended): a correction rule that reduces the target month's
stored drops by 20 leaves the active count of the target month and of
every earlier month unchanged (and those rows entirely unchanged except
the target's `new_drops`), and *increases* the active count of every
month strictly after the target by 20. -/
theorem C3_drop_reduction_shifts_later_months (ty tm : ℕ) (rows : List SRow)
    (i : ℕ) (t : SRow)
    (hcons : ∀ r ∈ rows, r.monthIdx = monthIdxOf r.year r.month)
    (hfind : findFirstIdx
      (fun r => decide (r.year = ty) && decide (r.month = tm)) rows = some i)
    (ht : rows[i]? = some t) :
    ((applyCorrection ty tm (t.newDrops - 20) rows)[i]? =
        some { t with newDrops := t.newDrops - 20 })
    ∧ (∀ (j : ℕ) (r : SRow), rows[j]? = some r → monthIdxOf ty tm < r.monthIdx →
        (applyCorrection ty tm (t.newDrops - 20) rows)[j]? =
          some { r with active := r.active + 20 })
    ∧ (∀ (j : ℕ) (r : SRow), rows[j]? = some r → r.monthIdx ≤ monthIdxOf ty tm → j ≠ i →
        (applyCorrection ty tm (t.newDrops - 20) rows)[j]? = some r) := by
  obtain ⟨h1, h2, h3, -⟩ :=
    C2_correction_rule ty tm (t.newDrops - 20) rows i t hcons hfind ht
  refine ⟨h1, ?_, h3⟩
  intro j r hjr hafter
  have := h2 j r hjr hafter
  rw [this]
  congr 1
  congr 1
  ring

/-- Witness for C3 (amended) at the concrete four-month summary: February
2025's active count rises from 1005 to 1025. -/
theorem C3_witness :
    (applyCorrection 2025 1
        ((⟨24300, 2025, 1, 1000, 10, 154⟩ : SRow).newDrops - 20)
        corrSummary)[2]? =
      some { (⟨24301, 2025, 2, 1005, 10, 5⟩ : SRow) with
              active := (⟨24301, 2025, 2, 1005, 10, 5⟩ : SRow).active + 20 } :=
  (C3_drop_reduction_shifts_later_months 2025 1 corrSummary 1
      ⟨24300, 2025, 1, 1000, 10, 154⟩ (by decide) (by decide) (by decide)).2.1
    2 ⟨24301, 2025, 2, 1005, 10, 5⟩ (by decide) (by decide)

/-- C10: `correct_known_data_issues` does not mutate its argument: it
copies the input dataframe (line 308) and writes only through the copy,
so after the call the caller's object still holds every original row and
the returned object is the corrected copy. -/
theorem C10_input_not_mutated (s : List SRow) :
    (correct_known_data_issues_run s).input = s ∧
      (correct_known_data_issues_run s).corrected = correct_known_data_issues s :=
  ⟨rfl, rfl⟩

/-- Net-change setters do not affect joins columns. -/
theorem methodJoins_setNet (m x : String) (v : Option ℤ) (r : FRow) :
    methodJoins m (setMethodNet x v r) = methodJoins m r := by
  unfold methodJoins setMethodNet
  split_ifs <;> rfl

/-- Active setters do not affect joins columns. -/
theorem methodJoins_setActive (m x : String) (v : Option ℤ) (r : FRow) :
    methodJoins m (setMethodActive x v r) = methodJoins m r := by
  unfold methodJoins setMethodActive
  split_ifs <;> rfl

/-- Net-change setters do not affect drops columns. -/
theorem methodDrops_setNet (m x : String) (v : Option ℤ) (r : FRow) :
    methodDrops m (setMethodNet x v r) = methodDrops m r := by
  unfold methodDrops setMethodNet
  split_ifs <;> rfl

/-- Active setters do not affect drops columns. -/
theorem methodDrops_setActive (m x : String) (v : Option ℤ) (r : FRow) :
    methodDrops m (setMethodActive x v r) = methodDrops m r := by
  unfold methodDrops setMethodActive
  split_ifs <;> rfl

/-- Active setters do not affect net-change columns. -/
theorem methodNet_setActive (m x : String) (v : Option ℤ) (r : FRow) :
    methodNet m (setMethodActive x v r) = methodNet m r := by
  unfold methodNet setMethodActive
  split_ifs <;> rfl

/-- Net-change setters do not affect active columns. -/
theorem methodActive_setNet (m x : String) (v : Option ℤ) (r : FRow) :
    methodActive m (setMethodNet x v r) = methodActive m r := by
  unfold methodActive setMethodNet
  split_ifs <;> rfl

/-- Setting a method's net-change column makes its getter read it back. -/
theorem methodNet_setNet_self (m : String) (hm : m = "simple" ∨ m = "ets")
    (v : Option ℤ) (r : FRow) :
    methodNet m (setMethodNet m v r) = v := by
  rcases hm with rfl | rfl <;> simp [methodNet, setMethodNet]

/-- A different method's net-change setter leaves the column alone. -/
theorem methodNet_setNet_ne (m x : String) (h : ¬ x = m) (v : Option ℤ)
    (r : FRow) : methodNet m (setMethodNet x v r) = methodNet m r := by
  unfold methodNet setMethodNet
  split_ifs <;> simp_all

/-- Setting a method's active column makes its getter read it back. -/
theorem methodActive_setActive_self (m : String)
    (hm : m = "simple" ∨ m = "ets") (v : Option ℤ) (r : FRow) :
    methodActive m (setMethodActive m v r) = v := by
  rcases hm with rfl | rfl <;> simp [methodActive, setMethodActive]

/-- A different method's active setter leaves the column alone. -/
theorem methodActive_setActive_ne (m x : String) (h : ¬ x = m)
    (v : Option ℤ) (r : FRow) :
    methodActive m (setMethodActive x v r) = methodActive m r := by
  unfold methodActive setMethodActive
  split_ifs <;> simp_all

/-- Month index is untouched by both setters. -/
theorem monthIdx_setNet (x : String) (v : Option ℤ) (r : FRow) :
    (setMethodNet x v r).monthIdx = r.monthIdx := by
  unfold setMethodNet
  split_ifs <;> rfl

/-- Month index is untouched by active setters. -/
theorem monthIdx_setActive (x : String) (v : Option ℤ) (r : FRow) :
    (setMethodActive x v r).monthIdx = r.monthIdx := by
  unfold setMethodActive
  split_ifs <;> rfl

/-- Forecast flag is untouched by net setters. -/
theorem isForecast_setNet (x : String) (v : Option ℤ) (r : FRow) :
    (setMethodNet x v r).isForecast = r.isForecast := by
  unfold setMethodNet
  split_ifs <;> rfl

/-- Forecast flag is untouched by active setters. -/
theorem isForecast_setActive (x : String) (v : Option ℤ) (r : FRow) :
    (setMethodActive x v r).isForecast = r.isForecast := by
  unfold setMethodActive
  split_ifs <;> rfl

/-- Positional characterisation of the ets fill: position `i` receives
the forecast values at index `k + i`. -/
theorem etsFill_getElem (ej ed : List ℤ) :
    ∀ (k i : ℕ) (rows : List FRow),
      (etsFill ej ed k rows)[i]? =
        (rows[i]?).map fun r =>
          { r with ets_joins := ej[k + i]?, ets_drops := ed[k + i]? } := by
  intro k i rows
  induction rows generalizing k i with
  | nil => simp [etsFill]
  | cons r rs ih =>
    cases i with
    | zero => simp [etsFill]
    | succ n =>
      have harith : k + 1 + n = k + (n + 1) := by omega
      simp [etsFill, ih (k + 1) n, harith]

/-- The ets fill keeps the length. -/
theorem etsFill_length (ej ed : List ℤ) :
    ∀ (k : ℕ) (rows : List FRow), (etsFill ej ed k rows).length = rows.length := by
  intro k rows
  induction rows generalizing k with
  | nil => rfl
  | cons r rs ih => simp [etsFill, ih]

/-- The running-active fill affects each position only through the active
setter: any observation insensitive to that setter is preserved
positionally. -/
theorem fillActive_congr {β : Type} (x : String) (g : FRow → β)
    (hg : ∀ v r, g (setMethodActive x v r) = g r) :
    ∀ (prev : Option ℤ) (rows : List FRow) (i : ℕ),
      ((fillActive x prev rows)[i]?).map g = (rows[i]?).map g := by
  intro prev rows
  induction rows generalizing prev with
  | nil => intro i; simp [fillActive]
  | cons r rs ih =>
    intro i
    cases i with
    | zero => simp [fillActive, hg]
    | succ n => simp [fillActive, ih _ n]

/-- The running-active fill keeps the length. -/
theorem fillActive_length (x : String) :
    ∀ (prev : Option ℤ) (rows : List FRow),
      (fillActive x prev rows).length = rows.length := by
  intro prev rows
  induction rows generalizing prev with
  | nil => rfl
  | cons r rs ih => simp [fillActive, ih]

/-- Every row of the running-active fill is an active-update of an input
row. -/
theorem fillActive_mem {x : String} :
    ∀ {prev : Option ℤ} {rows : List FRow} {r' : FRow},
      r' ∈ fillActive x prev rows →
      ∃ v r, r ∈ rows ∧ r' = setMethodActive x v r := by
  intro prev rows
  induction rows generalizing prev with
  | nil => intro r' h; simp [fillActive] at h
  | cons r rs ih =>
    intro r' h
    simp only [fillActive, List.mem_cons] at h
    rcases h with rfl | h
    · exact ⟨_, r, List.mem_cons_self r rs, rfl⟩
    · obtain ⟨v, r0, hr0, rfl⟩ := ih h
      exact ⟨v, r0, List.mem_cons_of_mem _ hr0, rfl⟩

/-- The head of the running-active fill is seeded from `prev`. -/
theorem fillActive_head (m : String) (hm : m = "simple" ∨ m = "ets") :
    ∀ (prev : Option ℤ) (rows : List FRow) (r : FRow),
      (fillActive m prev rows)[0]? = some r →
      methodActive m r = omap2 (· + ·) prev (methodNet m r) := by
  intro prev rows r h
  cases rows with
  | nil => simp [fillActive] at h
  | cons r0 rs =>
    simp only [fillActive, List.getElem?_cons_zero, Option.some.injEq] at h
    subst h
    rw [methodActive_setActive_self m hm, methodNet_setActive]

/-- The running-active recurrence of the fill: each position's active
value is the previous position's plus its own net change. -/
theorem fillActive_rec (m : String) (hm : m = "simple" ∨ m = "ets") :
    ∀ (prev : Option ℤ) (rows : List FRow) (i : ℕ) (r r' : FRow),
      (fillActive m prev rows)[i]? = some r →
      (fillActive m prev rows)[i + 1]? = some r' →
      methodActive m r' = omap2 (· + ·) (methodActive m r) (methodNet m r') := by
  intro prev rows
  induction rows generalizing prev with
  | nil => intro i r r' h _; simp [fillActive] at h
  | cons r0 rs ih =>
    intro i r r' h h'
    cases i with
    | zero =>
      simp only [fillActive, List.getElem?_cons_zero, List.getElem?_cons_succ,
        Option.some.injEq] at h h'
      subst h
      rw [fillActive_head m hm _ _ _ h', methodActive_setActive_self m hm]
    | succ n =>
      simp only [fillActive, List.getElem?_cons_succ] at h h'
      exact ih _ n r r' h h'

/-- Folding preserves an invariant preserved by every step. -/
theorem foldl_pres {α β : Type} (step : α → β → α) (P : α → Prop)
    (hstep : ∀ (x : β) (acc : α), P acc → P (step acc x)) :
    ∀ (l : List β) (acc : α), P acc → P (l.foldl step acc) := by
  intro l
  induction l with
  | nil => intro acc h; exact h
  | cons b l ih => intro acc h; exact ih _ (hstep b acc h)

/-- Folding over a list containing `m` establishes any property that the
`m`-step establishes and every step preserves. -/
theorem foldl_est {α β : Type} [DecidableEq β] (step : α → β → α)
    (P : α → Prop) (m : β)
    (hstep : ∀ (x : β) (acc : α), P acc → P (step acc x))
    (hest : ∀ acc : α, P (step acc m)) :
    ∀ (l : List β) (acc : α), m ∈ l → P (l.foldl step acc) := by
  intro l
  induction l with
  | nil => intro acc h; cases h
  | cons b l ih =>
    intro acc hm
    by_cases hb : m = b
    · subst hb
      exact foldl_pres step P hstep l _ (hest acc)
    · have hml : m ∈ l := by
        rcases List.mem_cons.mp hm with h | h
        · exact absurd h hb
        · exact h
      exact ih _ hml

/-- The engine on a non-empty prepared history and a non-empty methods
list: the sorted concatenation of historical and forecast rows. -/
theorem engine_eq_some (oracle : EtsOracle) (summary : List SRow)
    (forecast_periods lookback : ℕ) (d : String) (ms : List String)
    (now : Date)
    (hdata : prepare_summary_for_forecast summary lookback now ≠ []) :
    generate_business_forecast_from_summary oracle summary forecast_periods
        lookback (d :: ms) now =
      some (List.insertionSort frowLE
        ((prepare_summary_for_forecast summary lookback now).map histToFRow ++
          forecastRowsOf oracle (prepare_summary_for_forecast summary lookback now)
            forecast_periods (d :: ms) d)) := by
  unfold generate_business_forecast_from_summary
  simp [List.isEmpty_iff, hdata]

/-- Two lists agreeing on an observation at every position have equal
observation maps. -/
theorem map_eq_of_getElem?_map {β : Type} {l₁ l₂ : List FRow} (g : FRow → β)
    (h : ∀ i : ℕ, (l₁[i]?).map g = (l₂[i]?).map g) : l₁.map g = l₂.map g := by
  apply List.ext_getElem?
  intro n
  simp only [List.getElem?_map]
  exact h n

/-- The simple stage keeps the month of every row. -/
theorem map_monthIdx_simpleStage (data : List SRow) (methods : List String)
    (rows : List FRow) :
    (simpleStage data methods rows).map (·.monthIdx) = rows.map (·.monthIdx) := by
  unfold simpleStage
  split
  · rw [List.map_map]
    exact List.map_congr_left fun r _ => rfl
  · rfl

/-- The ets stage keeps the month of every row. -/
theorem map_monthIdx_etsStage (oracle : EtsOracle) (data : List SRow)
    (methods : List String) (p : ℕ) (rows : List FRow) :
    (etsStage oracle data methods p rows).map (·.monthIdx) =
      rows.map (·.monthIdx) := by
  unfold etsStage
  split
  · apply map_eq_of_getElem?_map
    intro i
    rw [etsFill_getElem]
    rw [Option.map_map]
    rfl
  · rfl

/-- One method's net/active derivation keeps the month of every row. -/
theorem map_monthIdx_applyNetActive (m : String) (seed : ℤ)
    (rows : List FRow) :
    (applyNetActive m seed rows).map (·.monthIdx) = rows.map (·.monthIdx) := by
  unfold applyNetActive
  apply map_eq_of_getElem?_map
  intro i
  rw [fillActive_congr m (·.monthIdx) (fun v r => monthIdx_setActive m v r)]
  rw [List.getElem?_map, Option.map_map]
  have : ((fun r : FRow => r.monthIdx) ∘ fun r : FRow =>
      setMethodNet m (omap2 (· - ·) (methodJoins m r) (methodDrops m r)) r) =
      fun r : FRow => r.monthIdx := by
    funext r
    exact monthIdx_setNet m _ r
  rw [this]

/-- The whole net/active stage keeps the month of every row. -/
theorem map_monthIdx_netActiveStage (methods : List String) (p : ℕ)
    (seed : ℤ) (rows : List FRow) :
    (netActiveStage methods p seed rows).map (·.monthIdx) =
      rows.map (·.monthIdx) := by
  unfold netActiveStage
  refine foldl_pres _
    (fun acc : List FRow => acc.map (·.monthIdx) = rows.map (·.monthIdx))
    ?_ methods rows rfl
  intro x acc h
  split
  · rw [map_monthIdx_applyNetActive, h]
  · exact h

/-- The aliasing stage keeps the month of every row. -/
theorem map_monthIdx_aliasStage (methods : List String) (p : ℕ) (d : String)
    (rows : List FRow) :
    (aliasStage methods p d rows).map (·.monthIdx) = rows.map (·.monthIdx) := by
  unfold aliasStage
  split
  · rw [List.map_map]
    exact List.map_congr_left fun r _ => rfl
  · rfl

/-- The months of the finished forecast rows: `forecast_periods`
consecutive months starting right after the last historical month. -/
theorem forecastRowsOf_keys (oracle : EtsOracle) (data : List SRow) (p : ℕ)
    (methods : List String) (d : String) :
    (forecastRowsOf oracle data p methods d).map (·.monthIdx) =
      (List.range p).map (fun i => lastHistIdx data + 1 + i) := by
  unfold forecastRowsOf stagedRows
  rw [map_monthIdx_aliasStage, map_monthIdx_netActiveStage,
    map_monthIdx_etsStage, map_monthIdx_simpleStage]
  unfold forecastBase
  rw [List.map_map]
  exact List.map_congr_left fun i _ => rfl

/-- Every finished forecast row is flagged `is_forecast = True`. -/
theorem forecastRowsOf_isForecast (oracle : EtsOracle) (data : List SRow)
    (p : ℕ) (methods : List String) (d : String) :
    ∀ r ∈ forecastRowsOf oracle data p methods d, r.isForecast = true := by
  unfold forecastRowsOf
  have hbase : ∀ r ∈ forecastBase (lastHistIdx data) p, r.isForecast = true := by
    intro r hr
    obtain ⟨i, -, rfl⟩ := List.mem_map.mp hr
    rfl
  have hsimple : ∀ r ∈ simpleStage data methods
      (forecastBase (lastHistIdx data) p), r.isForecast = true := by
    unfold simpleStage
    split
    · intro r hr
      obtain ⟨r0, hr0, rfl⟩ := List.mem_map.mp hr
      exact hbase r0 hr0
    · exact hbase
  have hets : ∀ r ∈ etsStage oracle data methods p
      (simpleStage data methods (forecastBase (lastHistIdx data) p)),
      r.isForecast = true := by
    unfold etsStage
    split
    · intro r hr
      obtain ⟨i, hi⟩ := List.mem_iff_getElem?.mp hr
      rw [etsFill_getElem] at hi
      obtain ⟨r0, hr0, rfl⟩ := Option.map_eq_some'.mp hi
      exact hsimple r0 (List.mem_iff_getElem?.mpr ⟨i, hr0⟩)
    · exact hsimple
  have hna : ∀ r ∈ netActiveStage methods p
      (((data.getLast?).map (·.active)).getD 0)
      (etsStage oracle data methods p
        (simpleStage data methods (forecastBase (lastHistIdx data) p))),
      r.isForecast = true := by
    unfold netActiveStage
    refine foldl_pres _
      (fun acc : List FRow => ∀ r ∈ acc, r.isForecast = true) ?_ methods _ hets
    intro x acc h
    split
    · intro r' hr'
      unfold applyNetActive at hr'
      obtain ⟨v, r0, hr0, rfl⟩ := fillActive_mem hr'
      obtain ⟨r1, hr1, rfl⟩ := List.mem_map.mp hr0
      rw [isForecast_setActive, isForecast_setNet]
      exact h r1 hr1
    · exact h
  unfold aliasStage
  split
  · intro r hr
    obtain ⟨r0, hr0, rfl⟩ := List.mem_map.mp hr
    exact hna r0 hr0
  · exact hna

/-- Historical rows enter the combined table flagged
`is_forecast = False`. -/
theorem histToFRow_isForecast (data : List SRow) :
    ∀ r ∈ data.map histToFRow, r.isForecast = false := by
  intro r hr
  obtain ⟨h, -, rfl⟩ := List.mem_map.mp hr
  rfl

/-- Sorting the concatenation of non-forecast rows with strictly
increasing forecast rows and then filtering on the forecast flag recovers
exactly the forecast rows. -/
theorem filter_sort_append_eq (hist fore : List FRow)
    (hh : ∀ r ∈ hist, r.isForecast = false)
    (hf : ∀ r ∈ fore, r.isForecast = true)
    (hkeys : fore.Pairwise frowLT) :
    (List.insertionSort frowLE (hist ++ fore)).filter (·.isForecast) = fore := by
  have hperm : List.Perm (List.insertionSort frowLE (hist ++ fore))
      (hist ++ fore) :=
    List.perm_insertionSort frowLE (hist ++ fore)
  have hp2 : List.Perm
      ((List.insertionSort frowLE (hist ++ fore)).filter (·.isForecast))
      fore := by
    refine (hperm.filter _).trans ?_
    rw [List.filter_append, List.filter_eq_nil_iff.mpr ?_,
      List.filter_eq_self.mpr ?_]
    · simp
    · intro a ha
      simp [hf a ha]
    · intro a ha
      simp [hh a ha]
  have hsorted : ((List.insertionSort frowLE (hist ++ fore)).filter
      (·.isForecast)).Pairwise frowLE :=
    List.Pairwise.filter (·.isForecast)
      (List.sorted_insertionSort frowLE (hist ++ fore))
  have hndfore : (fore.map (·.monthIdx)).Nodup :=
    List.pairwise_map.mpr (hkeys.imp fun h => Nat.ne_of_lt h)
  have hnd : (((List.insertionSort frowLE (hist ++ fore)).filter
      (·.isForecast)).map (·.monthIdx)).Nodup :=
    (List.Perm.nodup_iff (hp2.map (·.monthIdx))).mpr hndfore
  have hne : ((List.insertionSort frowLE (hist ++ fore)).filter
      (·.isForecast)).Pairwise (fun a b => a.monthIdx ≠ b.monthIdx) :=
    List.pairwise_map.mp hnd
  have hstrict : ((List.insertionSort frowLE (hist ++ fore)).filter
      (·.isForecast)).Pairwise frowLT :=
    (hsorted.and hne).imp fun h => Nat.lt_of_le_of_ne h.1 h.2
  haveI : IsAntisymm FRow frowLT :=
    ⟨fun a b h1 h2 => absurd h2 (Nat.lt_asymm h1)⟩
  exact List.eq_of_perm_of_sorted hp2 hstrict hkeys

/-- Counterexample to C5 as stated: with the unknown method string
`sarima` requested, the generator does not fail — it returns a combined
table. -/
theorem C5_counterexample :
    (generate_business_forecast_from_summary zeroOracle sampleSummary 2 5
      ["sarima"] sampleNow).isSome = true := by
  decide

/-- C5 (amended): a method string outside {simple, ets} is not rejected
with a configuration error; the engine runs to completion — provided the
prepared history and the methods list are non-empty, it returns a
combined table — and the unknown method gets no columns: every output row
has no joins, drops, net-change or active value for it. -/
theorem C5_unknown_method_ignored (oracle : EtsOracle) (summary : List SRow)
    (forecast_periods lookback : ℕ) (d : String) (ms : List String)
    (now : Date) (m : String)
    (hdata : prepare_summary_for_forecast summary lookback now ≠ [])
    (hm : m ∈ d :: ms) (hs : ¬ m = "simple") (he : ¬ m = "ets") :
    (generate_business_forecast_from_summary oracle summary forecast_periods
        lookback (d :: ms) now).isSome = true
    ∧ ∀ out, generate_business_forecast_from_summary oracle summary
        forecast_periods lookback (d :: ms) now = some out →
        ∀ r ∈ out, methodJoins m r = none ∧ methodDrops m r = none ∧
          methodNet m r = none ∧ methodActive m r = none := by
  constructor
  · rw [engine_eq_some oracle summary forecast_periods lookback d ms now hdata]
    rfl
  · intro out _ r _
    refine ⟨?_, ?_, ?_, ?_⟩ <;>
      simp [methodJoins, methodDrops, methodNet, methodActive, hs, he]

/-- Witness for C5 (amended): `sarima` alongside `simple` is silently
ignored on the sample summary. -/
theorem C5_witness :
    (generate_business_forecast_from_summary zeroOracle sampleSummary 1 5
        ["simple", "sarima"] sampleNow).isSome = true
    ∧ ∀ out, generate_business_forecast_from_summary zeroOracle sampleSummary
        1 5 ["simple", "sarima"] sampleNow = some out →
        ∀ r ∈ out, methodJoins "sarima" r = none ∧
          methodDrops "sarima" r = none ∧ methodNet "sarima" r = none ∧
          methodActive "sarima" r = none :=
  C5_unknown_method_ignored zeroOracle sampleSummary 1 5 "simple" ["sarima"]
    sampleNow "sarima" (by decide) (by decide) (by decide) (by decide)

/-- Counterexample to C6 as stated: a summary whose last historical month
is duplicated yields a composed series with a duplicate month, yet the
engine emits it instead of failing with a contiguity error. -/
theorem C6_counterexample :
    (generate_business_forecast_from_summary zeroOracle dupSummary 1 5
        ["simple"] sampleNow).isSome = true
    ∧ ¬ (((generate_business_forecast_from_summary zeroOracle dupSummary 1 5
        ["simple"] sampleNow).getD []).map (·.monthIdx)).Nodup := by
  with_unfolding_all decide

/-- C6 (amended): the composer concatenates the historical rows
(`is_forecast = False`) with the forecast rows (`is_forecast = True`) and
sorts the result ascending by month; no contiguity validation is
performed (a duplicate or missing month passes through silently). -/
theorem C6_compose_concat_sort (oracle : EtsOracle) (summary : List SRow)
    (forecast_periods lookback : ℕ) (d : String) (ms : List String)
    (now : Date) (out : List FRow)
    (hout : generate_business_forecast_from_summary oracle summary
      forecast_periods lookback (d :: ms) now = some out) :
    out.Pairwise frowLE
    ∧ List.Perm out
        ((prepare_summary_for_forecast summary lookback now).map histToFRow ++
          forecastRowsOf oracle (prepare_summary_for_forecast summary lookback now)
            forecast_periods (d :: ms) d)
    ∧ (∀ r ∈ (prepare_summary_for_forecast summary lookback now).map histToFRow,
        r.isForecast = false)
    ∧ (∀ r ∈ forecastRowsOf oracle
        (prepare_summary_for_forecast summary lookback now)
        forecast_periods (d :: ms) d, r.isForecast = true) := by
  have hdata : prepare_summary_for_forecast summary lookback now ≠ [] := by
    intro hd
    rw [generate_business_forecast_from_summary] at hout
    simp [hd] at hout
  rw [engine_eq_some oracle summary forecast_periods lookback d ms now hdata]
    at hout
  obtain rfl : List.insertionSort frowLE
      ((prepare_summary_for_forecast summary lookback now).map histToFRow ++
        forecastRowsOf oracle (prepare_summary_for_forecast summary lookback now)
          forecast_periods (d :: ms) d) = out := Option.some.inj hout
  refine ⟨List.sorted_insertionSort frowLE _, List.perm_insertionSort frowLE _,
    histToFRow_isForecast _, forecastRowsOf_isForecast oracle _ _ _ _⟩

/-- Witness for C6 at the sample summary: the emitted table is sorted by
month. -/
theorem C6_witness :
    ((generate_business_forecast_from_summary zeroOracle sampleSummary 1 5
        ["simple"] sampleNow).getD []).Pairwise frowLE :=
  (C6_compose_concat_sort zeroOracle sampleSummary 1 5 "simple" [] sampleNow
    ((generate_business_forecast_from_summary zeroOracle sampleSummary 1 5
        ["simple"] sampleNow).getD [])
    (by
      have h1 : (generate_business_forecast_from_summary zeroOracle
          sampleSummary 1 5 ["simple"] sampleNow).isSome = true := by decide
      cases heq : generate_business_forecast_from_summary zeroOracle
          sampleSummary 1 5 ["simple"] sampleNow with
      | none => simp [heq] at h1
      | some l => simp [heq])).1

/-- Month number is untouched by net setters. -/
theorem month_setNet (x : String) (v : Option ℤ) (r : FRow) :
    (setMethodNet x v r).month = r.month := by
  unfold setMethodNet
  split_ifs <;> rfl

/-- Month number is untouched by active setters. -/
theorem month_setActive (x : String) (v : Option ℤ) (r : FRow) :
    (setMethodActive x v r).month = r.month := by
  unfold setMethodActive
  split_ifs <;> rfl

/-- Aliasing writes only the unqualified columns: joins getters are
unchanged. -/
theorem methodJoins_aliasRow (m d : String) (r : FRow) :
    methodJoins m (aliasRow d r) = methodJoins m r := by
  unfold methodJoins aliasRow
  split_ifs <;> rfl

/-- Aliasing leaves drops getters unchanged. -/
theorem methodDrops_aliasRow (m d : String) (r : FRow) :
    methodDrops m (aliasRow d r) = methodDrops m r := by
  unfold methodDrops aliasRow
  split_ifs <;> rfl

/-- Aliasing leaves net-change getters unchanged. -/
theorem methodNet_aliasRow (m d : String) (r : FRow) :
    methodNet m (aliasRow d r) = methodNet m r := by
  unfold methodNet aliasRow
  split_ifs <;> rfl

/-- Aliasing leaves active getters unchanged. -/
theorem methodActive_aliasRow (m d : String) (r : FRow) :
    methodActive m (aliasRow d r) = methodActive m r := by
  unfold methodActive aliasRow
  split_ifs <;> rfl

/-- Every row of one method's net/active derivation is an active-update
of a net-update of an input row, the written net value being that row's
joins minus drops. -/
theorem applyNetActive_mem {x : String} {seed : ℤ} {rows : List FRow}
    {r' : FRow} (h : r' ∈ applyNetActive x seed rows) :
    ∃ (v : Option ℤ) (r : FRow), r ∈ rows ∧
      r' = setMethodActive x v
        (setMethodNet x (omap2 (· - ·) (methodJoins x r) (methodDrops x r)) r) := by
  unfold applyNetActive at h
  obtain ⟨v, r0, hr0, rfl⟩ := fillActive_mem h
  obtain ⟨r1, hr1, rfl⟩ := List.mem_map.mp hr0
  exact ⟨v, r1, hr1, rfl⟩

/-- Folding over a list containing `m` establishes `Q` when the `m`-step
establishes it from an all-steps invariant `P` and every step preserves
both. -/
theorem foldl_est_under {α β : Type} [DecidableEq β] (step : α → β → α)
    (P Q : α → Prop) (m : β)
    (hP : ∀ (x : β) (acc : α), P acc → P (step acc x))
    (hQ : ∀ (x : β) (acc : α), P acc → Q acc → Q (step acc x))
    (hest : ∀ acc : α, P acc → Q (step acc m)) :
    ∀ (l : List β) (acc : α), m ∈ l → P acc → Q (l.foldl step acc) := by
  intro l
  induction l with
  | nil => intro acc h; cases h
  | cons b l ih =>
    intro acc hm hPacc
    by_cases hb : m = b
    · subst hb
      have hPQ := foldl_pres step (fun a => P a ∧ Q a)
        (fun x a ha => ⟨hP x a ha.1, hQ x a ha.1 ha.2⟩) l (step acc m)
        ⟨hP m acc hPacc, hest acc hPacc⟩
      exact hPQ.2
    · have hml : m ∈ l := by
        rcases List.mem_cons.mp hm with h | h
        · exact absurd h hb
        · exact h
      exact ih (step acc b) hml (hP b acc hPacc)

/-- Positional preservation of any setter-insensitive observation through
one method's net/active derivation. -/
theorem applyNetActive_getElem_map {β : Type} (x : String) (seed : ℤ)
    (g : FRow → β) (hg1 : ∀ v r, g (setMethodActive x v r) = g r)
    (hg2 : ∀ v r, g (setMethodNet x v r) = g r) (rows : List FRow) (i : ℕ) :
    ((applyNetActive x seed rows)[i]?).map g = (rows[i]?).map g := by
  unfold applyNetActive
  rw [fillActive_congr x g hg1, List.getElem?_map, Option.map_map]
  congr 1
  funext r
  exact hg2 _ r

/-- Positional preservation of any setter-insensitive observation through
the whole net/active stage. -/
theorem netActiveStage_getElem_map {β : Type} (g : FRow → β)
    (hg1 : ∀ x v r, g (setMethodActive x v r) = g r)
    (hg2 : ∀ x v r, g (setMethodNet x v r) = g r)
    (methods : List String) (p : ℕ) (seed : ℤ) (rows : List FRow) (i : ℕ) :
    ((netActiveStage methods p seed rows)[i]?).map g = (rows[i]?).map g := by
  unfold netActiveStage
  refine foldl_pres _
    (fun acc : List FRow => (acc[i]?).map g = (rows[i]?).map g) ?_ methods rows
    rfl
  intro x acc h
  split
  · rw [applyNetActive_getElem_map x _ g (hg1 x) (hg2 x), h]
  · exact h

/-- Positional preservation of any aliasing-insensitive observation
through the aliasing stage. -/
theorem aliasStage_getElem_map {β : Type} (g : FRow → β)
    (hg : ∀ d r, g (aliasRow d r) = g r) (methods : List String) (p : ℕ)
    (d : String) (rows : List FRow) (i : ℕ) :
    ((aliasStage methods p d rows)[i]?).map g = (rows[i]?).map g := by
  unfold aliasStage
  split
  · rw [List.getElem?_map, Option.map_map]
    congr 1
    funext r
    exact hg d r
  · rfl

/-- The simple stage keeps the length. -/
theorem simpleStage_length (data : List SRow) (methods : List String)
    (rows : List FRow) : (simpleStage data methods rows).length = rows.length := by
  unfold simpleStage
  split <;> simp

/-- The ets stage keeps the length. -/
theorem etsStage_length (oracle : EtsOracle) (data : List SRow)
    (methods : List String) (p : ℕ) (rows : List FRow) :
    (etsStage oracle data methods p rows).length = rows.length := by
  unfold etsStage
  split
  · exact etsFill_length _ _ 0 rows
  · rfl

/-- The finished forecast rows number exactly `forecast_periods`. -/
theorem forecastRowsOf_length (oracle : EtsOracle) (data : List SRow) (p : ℕ)
    (methods : List String) (d : String) :
    (forecastRowsOf oracle data p methods d).length = p := by
  have h := forecastRowsOf_keys oracle data p methods d
  have := congrArg List.length h
  simpa using this

/-- The length of the staged rows is the number of forecast periods. -/
theorem stagedRows_length (oracle : EtsOracle) (data : List SRow) (p : ℕ)
    (methods : List String) : (stagedRows oracle data p methods).length = p := by
  unfold stagedRows
  rw [etsStage_length, simpleStage_length]
  unfold forecastBase
  simp

/-- After the fills, every staged row carries the simple forecast of its
own calendar month (when `simple` was requested). -/
theorem stagedRows_simple_values (oracle : EtsOracle) (data : List SRow)
    (p : ℕ) (methods : List String) (hm : "simple" ∈ methods) :
    ∀ r ∈ stagedRows oracle data p methods,
      methodJoins "simple" r = some (simpleForecastFor data r.month).1 ∧
      methodDrops "simple" r = some (simpleForecastFor data r.month).2 := by
  have h1 : ∀ r ∈ simpleStage data methods (forecastBase (lastHistIdx data) p),
      methodJoins "simple" r = some (simpleForecastFor data r.month).1 ∧
      methodDrops "simple" r = some (simpleForecastFor data r.month).2 := by
    unfold simpleStage
    rw [if_pos hm]
    intro r hr
    obtain ⟨r0, -, rfl⟩ := List.mem_map.mp hr
    constructor <;> simp [methodJoins, methodDrops]
  unfold stagedRows etsStage
  split
  · intro r hr
    obtain ⟨i, hi⟩ := List.mem_iff_getElem?.mp hr
    rw [etsFill_getElem] at hi
    obtain ⟨r0, hr0, rfl⟩ := Option.map_eq_some'.mp hi
    have hp0 := h1 r0 (List.mem_iff_getElem?.mpr ⟨i, hr0⟩)
    constructor
    · simpa [methodJoins, methodDrops] using hp0.1
    · simpa [methodJoins, methodDrops] using hp0.2
  · exact h1

/-- After the fills, the staged row at position `i` carries the ets
forecast values at index `i` (when `ets` was requested). -/
theorem stagedRows_ets_values (oracle : EtsOracle) (data : List SRow)
    (p : ℕ) (methods : List String) (hm : "ets" ∈ methods) :
    ∀ (i : ℕ) (r : FRow), (stagedRows oracle data p methods)[i]? = some r →
      methodJoins "ets" r = (generate_ets_forecast oracle data p).1[i]? ∧
      methodDrops "ets" r = (generate_ets_forecast oracle data p).2[i]? := by
  intro i r hr
  unfold stagedRows etsStage at hr
  rw [if_pos hm, etsFill_getElem] at hr
  obtain ⟨r0, -, rfl⟩ := Option.map_eq_some'.mp hr
  constructor <;> simp [methodJoins, methodDrops]

/-- When a method's columns exist it is one of the implemented methods
and the forecast horizon is non-trivial. -/
theorem colsExist_cases (methods : List String) (p : ℕ) (x : String)
    (h : colsExist methods p x = true) :
    (x = "simple" ∨ x = "ets") ∧ x ∈ methods ∧ 0 < p := by
  unfold colsExist at h
  simp only [Bool.and_eq_true, Bool.or_eq_true, decide_eq_true_eq] at h
  rcases h with ⟨h1 | h1, h2⟩
  · exact ⟨Or.inl h1.1, h1.1 ▸ h1.2, h2⟩
  · exact ⟨Or.inr h1.1, h1.1 ▸ h1.2, h2⟩

/-- An implemented, requested method's columns exist as soon as one
forecast row does. -/
theorem colsExist_of_mem (methods : List String) (p : ℕ) (m : String)
    (hmse : m = "simple" ∨ m = "ets") (hm : m ∈ methods) (hp : 0 < p) :
    colsExist methods p m = true := by
  rcases hmse with rfl | rfl <;> simp [colsExist, hm, hp]

/-- Positional transfer of a paired observation along a positional
`map`-equation. -/
theorem getElem_map_pair_transfer {β : Type} {l₁ l₂ : List FRow}
    (g : FRow → β) (h : ∀ i : ℕ, (l₁[i]?).map g = (l₂[i]?).map g) (i : ℕ)
    (r : FRow) (hr : l₁[i]? = some r) :
    ∃ r₀, l₂[i]? = some r₀ ∧ g r₀ = g r := by
  have hi := h i
  rw [hr] at hi
  obtain ⟨r₀, h₀, hgr⟩ := Option.map_eq_some'.mp hi.symm
  exact ⟨r₀, h₀, hgr⟩

/-- Joins/drops/month observations pass unchanged from the staged rows to
the finished forecast rows. -/
theorem forecastRowsOf_jd_getElem (oracle : EtsOracle) (data : List SRow)
    (p : ℕ) (methods : List String) (d m : String) (i : ℕ) :
    ((forecastRowsOf oracle data p methods d)[i]?).map
        (fun r => (methodJoins m r, methodDrops m r, r.month)) =
      ((stagedRows oracle data p methods)[i]?).map
        (fun r => (methodJoins m r, methodDrops m r, r.month)) := by
  unfold forecastRowsOf
  rw [aliasStage_getElem_map _
    (fun d' r => by
      simp [methodJoins_aliasRow, methodDrops_aliasRow]
      rfl)]
  rw [netActiveStage_getElem_map _
    (fun x v r => by
      simp [methodJoins_setActive, methodDrops_setActive, month_setActive])
    (fun x v r => by
      simp [methodJoins_setNet, methodDrops_setNet, month_setNet])]

/-- C4/C7 helper: `net_change = joins - drops` on every finished forecast
row of a requested implemented method. -/
theorem forecastRowsOf_net_eq (oracle : EtsOracle) (data : List SRow)
    (p : ℕ) (methods : List String) (d m : String) (hm : m ∈ methods)
    (hmse : m = "simple" ∨ m = "ets") :
    ∀ r ∈ forecastRowsOf oracle data p methods d,
      methodNet m r = omap2 (· - ·) (methodJoins m r) (methodDrops m r) := by
  by_cases hp : 0 < p
  · have hcols := colsExist_of_mem methods p m hmse hm hp
    have hna : ∀ r ∈ netActiveStage methods p (lastActualOf data)
        (stagedRows oracle data p methods),
        methodNet m r = omap2 (· - ·) (methodJoins m r) (methodDrops m r) := by
      unfold netActiveStage
      refine foldl_est _
        (fun acc : List FRow => ∀ r ∈ acc,
          methodNet m r = omap2 (· - ·) (methodJoins m r) (methodDrops m r))
        m ?_ ?_ methods _ hm
      · intro x acc hQ
        split
        case isTrue hx =>
          have hxse := (colsExist_cases methods p x hx).1
          intro r' hr'
          obtain ⟨v, r0, hr0, rfl⟩ := applyNetActive_mem hr'
          by_cases hxm : x = m
          · subst hxm
            rw [methodNet_setActive, methodNet_setNet_self x hxse,
              methodJoins_setActive, methodJoins_setNet,
              methodDrops_setActive, methodDrops_setNet]
          · rw [methodNet_setActive, methodNet_setNet_ne m x hxm,
              methodJoins_setActive, methodJoins_setNet,
              methodDrops_setActive, methodDrops_setNet]
            exact hQ r0 hr0
        case isFalse => exact hQ
      · intro acc
        rw [if_pos hcols]
        intro r' hr'
        obtain ⟨v, r0, hr0, rfl⟩ := applyNetActive_mem hr'
        rw [methodNet_setActive, methodNet_setNet_self m hmse,
          methodJoins_setActive, methodJoins_setNet,
          methodDrops_setActive, methodDrops_setNet]
    unfold forecastRowsOf aliasStage
    split
    · intro r hr
      obtain ⟨r0, hr0, rfl⟩ := List.mem_map.mp hr
      rw [methodNet_aliasRow, methodJoins_aliasRow, methodDrops_aliasRow]
      exact hna r0 hr0
    · exact hna
  · intro r hr
    have hlen := forecastRowsOf_length oracle data p methods d
    obtain rfl : p = 0 := Nat.eq_zero_of_not_pos hp
    rw [List.length_eq_zero] at hlen
    rw [hlen] at hr
    cases hr

/-- The running-active fill produces a populated active column whenever
the seed and all net values are populated. -/
theorem fillActive_isSome (m : String) (hm : m = "simple" ∨ m = "ets") :
    ∀ (prev : Option ℤ) (rows : List FRow), prev.isSome = true →
      (∀ r ∈ rows, (methodNet m r).isSome = true) →
      ∀ r' ∈ fillActive m prev rows, (methodActive m r').isSome = true := by
  intro prev rows
  induction rows generalizing prev with
  | nil =>
    intro _ _ r' h
    simp [fillActive] at h
  | cons r0 rs ih =>
    intro hprev hnets r' hr'
    simp only [fillActive, List.mem_cons] at hr'
    have hcur : (omap2 (· + ·) prev (methodNet m r0)).isSome = true := by
      obtain ⟨a, ha⟩ := Option.isSome_iff_exists.mp hprev
      obtain ⟨b, hb⟩ :=
        Option.isSome_iff_exists.mp (hnets r0 (List.mem_cons_self r0 rs))
      rw [ha, hb]
      rfl
    rcases hr' with rfl | hr'
    · rw [methodActive_setActive_self m hm]
      exact hcur
    · exact ih _ hcur (fun r hr => hnets r (List.mem_cons_of_mem _ hr)) r' hr'

/-- C4 helper: when a requested implemented method's joins and drops are
populated on every staged row, its net-change and active columns are
populated on every finished forecast row. -/
theorem forecastRowsOf_net_active_isSome (oracle : EtsOracle)
    (data : List SRow) (p : ℕ) (methods : List String) (d m : String)
    (hm : m ∈ methods) (hmse : m = "simple" ∨ m = "ets")
    (hjd : ∀ r ∈ stagedRows oracle data p methods,
      (methodJoins m r).isSome = true ∧ (methodDrops m r).isSome = true) :
    ∀ r ∈ forecastRowsOf oracle data p methods d,
      (methodNet m r).isSome = true ∧ (methodActive m r).isSome = true := by
  by_cases hp : 0 < p
  · have hcols := colsExist_of_mem methods p m hmse hm hp
    have hest : ∀ acc : List FRow,
        (∀ r ∈ acc, (methodJoins m r).isSome = true ∧
          (methodDrops m r).isSome = true) →
        ∀ r' ∈ applyNetActive m (lastActualOf data) acc,
          (methodNet m r').isSome = true ∧ (methodActive m r').isSome = true := by
      intro acc hPacc r' hr'
      constructor
      · obtain ⟨v, r0, hr0, rfl⟩ := applyNetActive_mem hr'
        rw [methodNet_setActive, methodNet_setNet_self m hmse]
        obtain ⟨a, ha⟩ := Option.isSome_iff_exists.mp (hPacc r0 hr0).1
        obtain ⟨b, hb⟩ := Option.isSome_iff_exists.mp (hPacc r0 hr0).2
        rw [ha, hb]
        rfl
      · unfold applyNetActive at hr'
        refine fillActive_isSome m hmse (some (lastActualOf data)) _ rfl ?_ r' hr'
        intro rr hrr
        obtain ⟨r1, hr1, rfl⟩ := List.mem_map.mp hrr
        rw [methodNet_setNet_self m hmse]
        obtain ⟨a, ha⟩ := Option.isSome_iff_exists.mp (hPacc r1 hr1).1
        obtain ⟨b, hb⟩ := Option.isSome_iff_exists.mp (hPacc r1 hr1).2
        rw [ha, hb]
        rfl
    have hna : ∀ r ∈ netActiveStage methods p (lastActualOf data)
        (stagedRows oracle data p methods),
        (methodNet m r).isSome = true ∧ (methodActive m r).isSome = true := by
      unfold netActiveStage
      refine foldl_est_under _
        (fun acc : List FRow => ∀ r ∈ acc,
          (methodJoins m r).isSome = true ∧ (methodDrops m r).isSome = true)
        (fun acc : List FRow => ∀ r ∈ acc,
          (methodNet m r).isSome = true ∧ (methodActive m r).isSome = true)
        m ?_ ?_ ?_ methods _ hm hjd
      · intro x acc hP
        split
        case isTrue hx =>
          intro r' hr'
          obtain ⟨v, r0, hr0, rfl⟩ := applyNetActive_mem hr'
          rw [methodJoins_setActive, methodJoins_setNet,
            methodDrops_setActive, methodDrops_setNet]
          exact hP r0 hr0
        case isFalse => exact hP
      · intro x acc hP hQ
        split
        case isTrue hx =>
          by_cases hxm : x = m
          · subst hxm
            exact hest acc hP
          · intro r' hr'
            obtain ⟨v, r0, hr0, rfl⟩ := applyNetActive_mem hr'
            rw [methodNet_setActive, methodNet_setNet_ne m x hxm,
              methodActive_setActive_ne m x hxm, methodActive_setNet]
            exact hQ r0 hr0
        case isFalse => exact hQ
      · intro acc hP
        rw [if_pos hcols]
        exact hest acc hP
    unfold forecastRowsOf aliasStage
    split
    · intro r hr
      obtain ⟨r0, hr0, rfl⟩ := List.mem_map.mp hr
      rw [methodNet_aliasRow, methodActive_aliasRow]
      exact hna r0 hr0
    · exact hna
  · intro r hr
    have hlen := forecastRowsOf_length oracle data p methods d
    obtain rfl : p = 0 := Nat.eq_zero_of_not_pos hp
    rw [List.length_eq_zero] at hlen
    rw [hlen] at hr
    cases hr

/-- Active/net observations pass positionally through a different
method's net/active derivation. -/
theorem applyNetActive_pair_getElem (m x : String) (hxm : ¬ x = m)
    (seed : ℤ) (rows : List FRow) (i : ℕ) :
    ((applyNetActive x seed rows)[i]?).map
        (fun r => (methodActive m r, methodNet m r)) =
      (rows[i]?).map (fun r => (methodActive m r, methodNet m r)) :=
  applyNetActive_getElem_map x seed _
    (fun v r => by
      simp [methodActive_setActive_ne m x hxm, methodNet_setActive])
    (fun v r => by
      simp [methodActive_setNet, methodNet_setNet_ne m x hxm])
    rows i

/-- The positional seeded-head and step recurrence of one method's
running active column, on the finished forecast rows. -/
theorem forecastRowsOf_active_recurrence (oracle : EtsOracle)
    (data : List SRow) (p : ℕ) (methods : List String) (d m : String)
    (hm : m ∈ methods) (hmse : m = "simple" ∨ m = "ets") :
    (∀ r : FRow, (forecastRowsOf oracle data p methods d)[0]? = some r →
      methodActive m r = omap2 (· + ·) (some (lastActualOf data)) (methodNet m r))
    ∧ (∀ (i : ℕ) (r r' : FRow),
        (forecastRowsOf oracle data p methods d)[i]? = some r →
        (forecastRowsOf oracle data p methods d)[i + 1]? = some r' →
        methodActive m r' = omap2 (· + ·) (methodActive m r) (methodNet m r')) := by
  by_cases hp : 0 < p
  · have hcols := colsExist_of_mem methods p m hmse hm hp
    set Q : List FRow → Prop := fun acc =>
      (∀ r : FRow, acc[0]? = some r →
        methodActive m r = omap2 (· + ·) (some (lastActualOf data)) (methodNet m r))
      ∧ (∀ (i : ℕ) (r r' : FRow), acc[i]? = some r → acc[i + 1]? = some r' →
        methodActive m r' = omap2 (· + ·) (methodActive m r) (methodNet m r'))
      with hQdef
    have hest : ∀ acc : List FRow, Q (applyNetActive m (lastActualOf data) acc) := by
      intro acc
      rw [hQdef]
      constructor
      · intro r h0
        exact fillActive_head m hmse _ _ r h0
      · intro i r r' h h'
        exact fillActive_rec m hmse _ _ i r r' h h'
    have htransfer : ∀ acc acc' : List FRow,
        (∀ i : ℕ, (acc'[i]?).map (fun r => (methodActive m r, methodNet m r)) =
          (acc[i]?).map (fun r => (methodActive m r, methodNet m r))) →
        Q acc → Q acc' := by
      intro acc acc' hmap hQ
      rw [hQdef]
      constructor
      · intro r h0
        obtain ⟨r₀, h₀, hg⟩ := getElem_map_pair_transfer _ hmap 0 r h0
        obtain ⟨hg1, hg2⟩ := Prod.mk.injEq .. ▸ hg
        rw [← hg1, ← hg2]
        exact hQ.1 r₀ h₀
      · intro i r r' h h'
        obtain ⟨r₀, h₀, hg⟩ := getElem_map_pair_transfer _ hmap i r h
        obtain ⟨r₁, h₁, hg'⟩ := getElem_map_pair_transfer _ hmap (i + 1) r' h'
        obtain ⟨hg1, hg2⟩ := Prod.mk.injEq .. ▸ hg
        obtain ⟨hg3, hg4⟩ := Prod.mk.injEq .. ▸ hg'
        rw [← hg1, ← hg3, ← hg4]
        exact hQ.2 i r₀ r₁ h₀ h₁
    have hna : Q (netActiveStage methods p (lastActualOf data)
        (stagedRows oracle data p methods)) := by
      unfold netActiveStage
      refine foldl_est _ Q m ?_ ?_ methods _ hm
      · intro x acc hQ
        split
        case isTrue hx =>
          by_cases hxm : x = m
          · subst hxm
            exact hest acc
          · exact htransfer acc _
              (applyNetActive_pair_getElem m x hxm _ acc) hQ
        case isFalse => exact hQ
      · intro acc
        rw [if_pos hcols]
        exact hest acc
    refine htransfer _ _ ?_ hna
    intro i
    unfold forecastRowsOf
    exact aliasStage_getElem_map _
      (fun d' r => by simp [methodActive_aliasRow, methodNet_aliasRow])
      methods p d _ i
  · have hlen := forecastRowsOf_length oracle data p methods d
    obtain rfl : p = 0 := Nat.eq_zero_of_not_pos hp
    rw [List.length_eq_zero] at hlen
    rw [hlen]
    constructor
    · intro r h0
      simp at h0
    · intro i r r' h h'
      simp at h

/-- With `simple` requested, every finished forecast row carries the
simple forecast of its own calendar month. -/
theorem forecastRowsOf_simple_values (oracle : EtsOracle) (data : List SRow)
    (p : ℕ) (methods : List String) (d : String) (hm : "simple" ∈ methods) :
    ∀ r ∈ forecastRowsOf oracle data p methods d,
      methodJoins "simple" r = some (simpleForecastFor data r.month).1 ∧
      methodDrops "simple" r = some (simpleForecastFor data r.month).2 := by
  intro r hr
  obtain ⟨i, hi⟩ := List.mem_iff_getElem?.mp hr
  obtain ⟨r₀, h₀, hg⟩ := getElem_map_pair_transfer _
    (forecastRowsOf_jd_getElem oracle data p methods d "simple") i r hi
  have hv := stagedRows_simple_values oracle data p methods hm r₀
    (List.mem_iff_getElem?.mpr ⟨i, h₀⟩)
  obtain ⟨hg1, hg2, hg3⟩ : methodJoins "simple" r₀ = methodJoins "simple" r ∧
      methodDrops "simple" r₀ = methodDrops "simple" r ∧ r₀.month = r.month := by
    have := hg
    simp only [Prod.mk.injEq] at this
    exact ⟨this.1, this.2.1, this.2.2⟩
  rw [← hg1, ← hg2, ← hg3]
  exact hv

/-- With `ets` requested, the finished forecast row at position `i`
carries the ets forecast values at index `i`. -/
theorem forecastRowsOf_ets_values (oracle : EtsOracle) (data : List SRow)
    (p : ℕ) (methods : List String) (d : String) (hm : "ets" ∈ methods) :
    ∀ (i : ℕ) (r : FRow), (forecastRowsOf oracle data p methods d)[i]? = some r →
      methodJoins "ets" r = (generate_ets_forecast oracle data p).1[i]? ∧
      methodDrops "ets" r = (generate_ets_forecast oracle data p).2[i]? := by
  intro i r hi
  obtain ⟨r₀, h₀, hg⟩ := getElem_map_pair_transfer _
    (forecastRowsOf_jd_getElem oracle data p methods d "ets") i r hi
  have hv := stagedRows_ets_values oracle data p methods hm i r₀ h₀
  obtain ⟨hg1, hg2⟩ : methodJoins "ets" r₀ = methodJoins "ets" r ∧
      methodDrops "ets" r₀ = methodDrops "ets" r := by
    have := hg
    simp only [Prod.mk.injEq] at this
    exact ⟨this.1, this.2.1⟩
  rw [← hg1, ← hg2]
  exact hv

/-- The finished forecast rows have strictly increasing months. -/
theorem forecastRowsOf_pairwise (oracle : EtsOracle) (data : List SRow)
    (p : ℕ) (methods : List String) (d : String) :
    (forecastRowsOf oracle data p methods d).Pairwise frowLT := by
  have h1 : ((forecastRowsOf oracle data p methods d).map
      (·.monthIdx)).Pairwise (· < ·) := by
    rw [forecastRowsOf_keys]
    refine List.Pairwise.map _ ?_ (List.pairwise_lt_range p)
    intro a b hab
    omega
  have h2 := List.pairwise_map.mp h1
  exact h2

/-- On a successful engine run the forecast-flagged slice of the output
is exactly the finished forecast-row list, and the prepared history was
non-empty. -/
theorem engine_filter_eq (oracle : EtsOracle) (summary : List SRow)
    (p lookback : ℕ) (d : String) (ms : List String) (now : Date)
    (out : List FRow)
    (hout : generate_business_forecast_from_summary oracle summary p lookback
      (d :: ms) now = some out) :
    out.filter (·.isForecast) =
        forecastRowsOf oracle (prepare_summary_for_forecast summary lookback now)
          p (d :: ms) d
    ∧ prepare_summary_for_forecast summary lookback now ≠ [] := by
  have hdata : prepare_summary_for_forecast summary lookback now ≠ [] := by
    intro hd
    rw [generate_business_forecast_from_summary] at hout
    simp [hd] at hout
  rw [engine_eq_some oracle summary p lookback d ms now hdata] at hout
  obtain rfl := Option.some.inj hout
  exact ⟨filter_sort_append_eq _ _ (histToFRow_isForecast _)
    (forecastRowsOf_isForecast oracle _ p (d :: ms) d)
    (forecastRowsOf_pairwise oracle _ p (d :: ms) d), hdata⟩

/-- On a successful engine run every non-forecast output row is a
verbatim image of a prepared historical row. -/
theorem engine_hist_part (oracle : EtsOracle) (summary : List SRow)
    (p lookback : ℕ) (d : String) (ms : List String) (now : Date)
    (out : List FRow)
    (hout : generate_business_forecast_from_summary oracle summary p lookback
      (d :: ms) now = some out) :
    ∀ r ∈ out, r.isForecast = false →
      ∃ h ∈ prepare_summary_for_forecast summary lookback now,
        r = histToFRow h := by
  have hdata : prepare_summary_for_forecast summary lookback now ≠ [] := by
    intro hd
    rw [generate_business_forecast_from_summary] at hout
    simp [hd] at hout
  rw [engine_eq_some oracle summary p lookback d ms now hdata] at hout
  obtain rfl := Option.some.inj hout
  intro r hr hflag
  rw [(List.perm_insertionSort frowLE _).mem_iff] at hr
  rcases List.mem_append.mp hr with hmem | hmem
  · obtain ⟨h, hh, rfl⟩ := List.mem_map.mp hmem
    exact ⟨h, hh, rfl⟩
  · have := forecastRowsOf_isForecast oracle _ p (d :: ms) d r hmem
    rw [hflag] at this
    cases this

/-- Prepared rows come from the input summary. -/
theorem mem_prepare (summary : List SRow) (lookback : ℕ) (now : Date)
    (r : SRow) (h : r ∈ prepare_summary_for_forecast summary lookback now) :
    r ∈ summary := by
  unfold prepare_summary_for_forecast at h
  rw [List.mem_insertionSort] at h
  exact List.mem_of_mem_filter h

/-- Rounding half to even preserves non-negativity. -/
theorem roundHalfEven_nonneg (q : ℚ) (h : 0 ≤ q) : 0 ≤ roundHalfEven q := by
  unfold roundHalfEven
  have hf : 0 ≤ ⌊q⌋ := Int.floor_nonneg.mpr h
  split_ifs <;> omega

/-- The mean of non-negative values is non-negative. -/
theorem meanQ_nonneg (l : List ℤ) (h : ∀ v ∈ l, 0 ≤ v) : 0 ≤ meanQ l := by
  unfold meanQ
  apply div_nonneg
  · have hs : (0 : ℤ) ≤ l.sum := List.sum_nonneg h
    exact_mod_cast hs
  · exact Nat.cast_nonneg l.length

/-- With non-negative historical joins/drops the simple method's rounded
forecasts are non-negative. -/
theorem simpleForecastFor_nonneg (data : List SRow) (m : ℕ)
    (h : ∀ r ∈ data, 0 ≤ r.newJoins ∧ 0 ≤ r.newDrops) :
    0 ≤ (simpleForecastFor data m).1 ∧ 0 ≤ (simpleForecastFor data m).2 := by
  have hmeanJ : ∀ sub : List SRow, (∀ r ∈ sub, r ∈ data) →
      0 ≤ meanQ (sub.map (·.newJoins)) := by
    intro sub hsub
    apply meanQ_nonneg
    intro v hv
    obtain ⟨r, hr, rfl⟩ := List.mem_map.mp hv
    exact (h r (hsub r hr)).1
  have hmeanD : ∀ sub : List SRow, (∀ r ∈ sub, r ∈ data) →
      0 ≤ meanQ (sub.map (·.newDrops)) := by
    intro sub hsub
    apply meanQ_nonneg
    intro v hv
    obtain ⟨r, hr, rfl⟩ := List.mem_map.mp hv
    exact (h r (hsub r hr)).2
  have hself : ∀ r ∈ data, r ∈ data := fun r hr => hr
  have hfilter : ∀ r ∈ data.filter (fun r => decide (r.month = m)), r ∈ data :=
    fun r hr => List.mem_of_mem_filter hr
  have hdrop : ∀ r ∈ data.drop (data.length - 12), r ∈ data :=
    fun r hr => List.drop_subset _ _ hr
  have hfacJ : 0 ≤ (if 0 < meanQ (data.map (·.newJoins)) then
      meanQ ((data.drop (data.length - 12)).map (·.newJoins)) /
        meanQ (data.map (·.newJoins)) else 1) := by
    split
    · exact div_nonneg (hmeanJ _ hdrop) (hmeanJ _ hself)
    · exact zero_le_one
  have hfacD : 0 ≤ (if 0 < meanQ (data.map (·.newDrops)) then
      meanQ ((data.drop (data.length - 12)).map (·.newDrops)) /
        meanQ (data.map (·.newDrops)) else 1) := by
    split
    · exact div_nonneg (hmeanD _ hdrop) (hmeanD _ hself)
    · exact zero_le_one
  simp only [simpleForecastFor]
  split
  · refine ⟨roundHalfEven_nonneg _ ?_, roundHalfEven_nonneg _ ?_⟩
    · split
      · exact mul_nonneg (hmeanJ _ hfilter) hfacJ
      · exact hmeanJ _ hfilter
    · split
      · exact mul_nonneg (hmeanD _ hfilter) hfacD
      · exact hmeanD _ hfilter
  · exact ⟨roundHalfEven_nonneg _ (hmeanJ _ hself),
      roundHalfEven_nonneg _ (hmeanD _ hself)⟩

/-- When the default method's columns exist, aliasing copies its four
columns onto the unqualified column names of every finished forecast
row. -/
theorem forecastRowsOf_alias (oracle : EtsOracle) (data : List SRow) (p : ℕ)
    (methods : List String) (d : String)
    (hd : colsExist methods p d = true) :
    ∀ r ∈ forecastRowsOf oracle data p methods d,
      r.new_joins = methodJoins d r ∧ r.new_drops = methodDrops d r ∧
      r.net_change = methodNet d r ∧ r.active_businesses = methodActive d r := by
  unfold forecastRowsOf aliasStage
  rw [if_pos hd]
  intro r hr
  obtain ⟨r0, -, rfl⟩ := List.mem_map.mp hr
  refine ⟨?_, ?_, ?_, ?_⟩
  · rw [methodJoins_aliasRow]
    rfl
  · rw [methodDrops_aliasRow]
    rfl
  · rw [methodNet_aliasRow]
    rfl
  · rw [methodActive_aliasRow]
    rfl

/-- C7: for every requested implemented method, on the engine's output:
`{method}_net_change = {method}_joins - {method}_drops` on every forecast
row; the first forecast row's `{method}_active` is the last prepared
historical active count plus its own net change; every later forecast
row's `{method}_active` is the previous forecast row's plus its own net
change; and every historical row passes through with all its values —
in particular its active count — unchanged. -/
theorem C7_net_active_recurrence (oracle : EtsOracle) (summary : List SRow)
    (forecast_periods lookback : ℕ) (d : String) (ms : List String)
    (now : Date) (m : String) (out : List FRow)
    (hout : generate_business_forecast_from_summary oracle summary
      forecast_periods lookback (d :: ms) now = some out)
    (hm : m ∈ d :: ms) :
    (∀ r ∈ out.filter (·.isForecast),
      methodNet m r = omap2 (· - ·) (methodJoins m r) (methodDrops m r))
    ∧ (∀ r : FRow, (out.filter (·.isForecast))[0]? = some r →
      methodActive m r = omap2 (· + ·)
        (some (lastActualOf (prepare_summary_for_forecast summary lookback now)))
        (methodNet m r))
    ∧ (∀ (i : ℕ) (r r' : FRow),
      (out.filter (·.isForecast))[i]? = some r →
      (out.filter (·.isForecast))[i + 1]? = some r' →
      methodActive m r' = omap2 (· + ·) (methodActive m r) (methodNet m r'))
    ∧ (∀ r ∈ out, r.isForecast = false →
      ∃ h ∈ prepare_summary_for_forecast summary lookback now,
        r = histToFRow h) := by
  obtain ⟨hfe, -⟩ := engine_filter_eq oracle summary forecast_periods lookback
    d ms now out hout
  rw [hfe]
  by_cases hmse : m = "simple" ∨ m = "ets"
  · obtain ⟨hhead, hrec⟩ := forecastRowsOf_active_recurrence oracle
      (prepare_summary_for_forecast summary lookback now) forecast_periods
      (d :: ms) d m hm hmse
    exact ⟨forecastRowsOf_net_eq oracle _ forecast_periods (d :: ms) d m hm
        hmse,
      hhead, hrec,
      engine_hist_part oracle summary forecast_periods lookback d ms now out
        hout⟩
  · push_neg at hmse
    obtain ⟨hs, he⟩ := hmse
    have hnone : ∀ r : FRow, methodJoins m r = none ∧ methodDrops m r = none ∧
        methodNet m r = none ∧ methodActive m r = none := by
      intro r
      refine ⟨?_, ?_, ?_, ?_⟩ <;>
        simp [methodJoins, methodDrops, methodNet, methodActive, hs, he]
    refine ⟨?_, ?_, ?_,
      engine_hist_part oracle summary forecast_periods lookback d ms now out
        hout⟩
    · intro r _
      rw [(hnone r).2.2.1, (hnone r).1, (hnone r).2.1]
      rfl
    · intro r _
      rw [(hnone r).2.2.2, (hnone r).2.2.1]
      rfl
    · intro i r r' _ _
      rw [(hnone r').2.2.2, (hnone r).2.2.2, (hnone r').2.2.1]
      rfl

/-- Witness for C7 on the sample summary with the simple method: the
first forecast row satisfies the net-change equation. -/
theorem C7_witness :
    ((((generate_business_forecast_from_summary zeroOracle sampleSummary
        1 5 ["simple"] sampleNow).getD []).filter (·.isForecast))[0]?).map
        (fun r => methodNet "simple" r) =
      ((((generate_business_forecast_from_summary zeroOracle sampleSummary
        1 5 ["simple"] sampleNow).getD []).filter (·.isForecast))[0]?).map
        (fun r =>
          omap2 (· - ·) (methodJoins "simple" r) (methodDrops "simple" r)) := by
  have h := (C7_net_active_recurrence zeroOracle sampleSummary 1 5 "simple" []
    sampleNow "simple"
    ((generate_business_forecast_from_summary zeroOracle sampleSummary 1 5
        ["simple"] sampleNow).getD [])
    (by
      have h1 : (generate_business_forecast_from_summary zeroOracle
          sampleSummary 1 5 ["simple"] sampleNow).isSome = true := by decide
      cases heq : generate_business_forecast_from_summary zeroOracle
          sampleSummary 1 5 ["simple"] sampleNow with
      | none => simp [heq] at h1
      | some l => simp [heq])
    (by decide)).1
  cases hF : (((generate_business_forecast_from_summary zeroOracle
      sampleSummary 1 5 ["simple"] sampleNow).getD []).filter
      (·.isForecast))[0]? with
  | none => rfl
  | some r =>
    rw [Option.map_some', Option.map_some']
    exact congrArg some (h r (List.getElem?_mem hF))

/-- Counterexample to C4 as stated: with the methods list `["sarima"]` —
drawn from {simple, ets, sarima, seasonal, ensemble} — the engine emits
its one forecast row with none of the requested method's columns
populated. -/
theorem C4_counterexample :
    (((generate_business_forecast_from_summary zeroOracle sampleSummary 1 5
        ["sarima"] sampleNow).getD []).filter (·.isForecast)).length = 1
    ∧ (((generate_business_forecast_from_summary zeroOracle sampleSummary 1 5
        ["sarima"] sampleNow).getD []).filter (·.isForecast)).all
        (fun r => ! methodPopulated "sarima" r) = true := by
  decide

/-- C4 (amended): for every non-empty methods list drawn from
{simple, ets} and every `forecast_periods`, the engine emits exactly
`forecast_periods` forecast rows, every requested method's four columns
are populated on each of them, and the first requested method's values
are copied to the unqualified columns. -/
theorem C4_methods_populated_and_aliased (oracle : EtsOracle)
    (summary : List SRow) (forecast_periods lookback : ℕ) (d : String)
    (ms : List String) (now : Date) (out : List FRow)
    (hout : generate_business_forecast_from_summary oracle summary
      forecast_periods lookback (d :: ms) now = some out)
    (hall : ∀ m ∈ d :: ms, m = "simple" ∨ m = "ets") :
    (out.filter (·.isForecast)).length = forecast_periods
    ∧ (∀ m ∈ d :: ms, ∀ r ∈ out.filter (·.isForecast),
        methodPopulated m r = true)
    ∧ (∀ r ∈ out.filter (·.isForecast),
        r.new_joins = methodJoins d r ∧ r.new_drops = methodDrops d r ∧
        r.net_change = methodNet d r ∧
        r.active_businesses = methodActive d r) := by
  obtain ⟨hfe, -⟩ := engine_filter_eq oracle summary forecast_periods lookback
    d ms now out hout
  rw [hfe]
  refine ⟨forecastRowsOf_length oracle _ forecast_periods (d :: ms) d, ?_, ?_⟩
  · intro m hmmem r hr
    have hmse := hall m hmmem
    have hjd_staged : ∀ r0 ∈ stagedRows oracle
        (prepare_summary_for_forecast summary lookback now) forecast_periods
        (d :: ms),
        (methodJoins m r0).isSome = true ∧ (methodDrops m r0).isSome = true := by
      rcases hmse with rfl | rfl
      · intro r0 hr0
        have hv := stagedRows_simple_values oracle _ forecast_periods (d :: ms)
          hmmem r0 hr0
        rw [hv.1, hv.2]
        exact ⟨rfl, rfl⟩
      · intro r0 hr0
        obtain ⟨i, hi⟩ := List.mem_iff_getElem?.mp hr0
        have hv := stagedRows_ets_values oracle _ forecast_periods (d :: ms)
          hmmem i r0 hi
        have hilen : i < forecast_periods := by
          by_contra hge
          rw [← stagedRows_length oracle
            (prepare_summary_for_forecast summary lookback now)
            forecast_periods (d :: ms)] at hge
          rw [List.getElem?_eq_none (Nat.le_of_not_lt hge)] at hi
          exact Option.noConfusion hi
        rw [hv.1, hv.2]
        constructor <;>
          simp [generate_ets_forecast, List.getElem?_map, List.getElem?_range,
            hilen]
    have hna := forecastRowsOf_net_active_isSome oracle _ forecast_periods
      (d :: ms) d m hmmem hmse hjd_staged r hr
    obtain ⟨i, hi⟩ := List.mem_iff_getElem?.mp hr
    obtain ⟨r₀, h₀, hg⟩ := getElem_map_pair_transfer _
      (forecastRowsOf_jd_getElem oracle _ forecast_periods (d :: ms) d m) i r hi
    have hjd0 := hjd_staged r₀ (List.mem_iff_getElem?.mpr ⟨i, h₀⟩)
    obtain ⟨hg1, hg2⟩ : methodJoins m r₀ = methodJoins m r ∧
        methodDrops m r₀ = methodDrops m r := by
      have hgg := hg
      simp only [Prod.mk.injEq] at hgg
      exact ⟨hgg.1, hgg.2.1⟩
    unfold methodPopulated
    rw [← hg1, ← hg2, hjd0.1, hjd0.2, hna.1, hna.2]
    rfl
  · intro r hr
    have hp : 0 < forecast_periods := by
      rcases Nat.eq_zero_or_pos forecast_periods with rfl | hp
      · have hlen := forecastRowsOf_length oracle
          (prepare_summary_for_forecast summary lookback now) 0 (d :: ms) d
        rw [List.length_eq_zero] at hlen
        rw [hlen] at hr
        cases hr
      · exact hp
    exact forecastRowsOf_alias oracle _ forecast_periods (d :: ms) d
      (colsExist_of_mem (d :: ms) forecast_periods d
        (hall d (List.mem_cons_self d ms)) (List.mem_cons_self d ms) hp) r hr

/-- Witness for C4 (amended) on the sample summary with the simple
method. -/
theorem C4_witness :
    (((generate_business_forecast_from_summary zeroOracle sampleSummary 1 5
        ["simple"] sampleNow).getD []).filter (·.isForecast)).length = 1 :=
  (C4_methods_populated_and_aliased zeroOracle sampleSummary 1 5 "simple" []
    sampleNow
    ((generate_business_forecast_from_summary zeroOracle sampleSummary 1 5
        ["simple"] sampleNow).getD [])
    (by
      have h1 : (generate_business_forecast_from_summary zeroOracle
          sampleSummary 1 5 ["simple"] sampleNow).isSome = true := by decide
      cases heq : generate_business_forecast_from_summary zeroOracle
          sampleSummary 1 5 ["simple"] sampleNow with
      | none => simp [heq] at h1
      | some l => simp [heq])
    (by
      intro m hmmem
      rcases List.mem_cons.mp hmmem with rfl | h
      · exact Or.inl rfl
      · cases h)).1

/-- C8: given non-negative historical joins/drops counts, every joins and
drops value the engine emits for a requested method on a forecast row is
a non-negative integer. -/
theorem C8_forecasts_nonneg (oracle : EtsOracle) (summary : List SRow)
    (forecast_periods lookback : ℕ) (d : String) (ms : List String)
    (now : Date) (m : String) (out : List FRow)
    (hout : generate_business_forecast_from_summary oracle summary
      forecast_periods lookback (d :: ms) now = some out)
    (hm : m ∈ d :: ms)
    (hnn : ∀ r ∈ summary, 0 ≤ r.newJoins ∧ 0 ≤ r.newDrops) :
    ∀ r ∈ out, r.isForecast = true →
      (∀ v : ℤ, methodJoins m r = some v → 0 ≤ v) ∧
      (∀ v : ℤ, methodDrops m r = some v → 0 ≤ v) := by
  obtain ⟨hfe, -⟩ := engine_filter_eq oracle summary forecast_periods lookback
    d ms now out hout
  intro r hr hflag
  have hrf : r ∈ forecastRowsOf oracle
      (prepare_summary_for_forecast summary lookback now) forecast_periods
      (d :: ms) d := by
    rw [← hfe]
    exact List.mem_filter.mpr ⟨hr, hflag⟩
  have hnn_data : ∀ rr ∈ prepare_summary_for_forecast summary lookback now,
      0 ≤ rr.newJoins ∧ 0 ≤ rr.newDrops :=
    fun rr hrr => hnn rr (mem_prepare summary lookback now rr hrr)
  by_cases hs : m = "simple"
  · subst hs
    have hv := forecastRowsOf_simple_values oracle _ forecast_periods (d :: ms)
      d hm r hrf
    have hnnv := simpleForecastFor_nonneg
      (prepare_summary_for_forecast summary lookback now) r.month hnn_data
    constructor
    · intro v hvj
      rw [hv.1] at hvj
      obtain rfl := Option.some.inj hvj
      exact hnnv.1
    · intro v hvd
      rw [hv.2] at hvd
      obtain rfl := Option.some.inj hvd
      exact hnnv.2
  · by_cases he : m = "ets"
    · subst he
      obtain ⟨i, hi⟩ := List.mem_iff_getElem?.mp hrf
      have hv := forecastRowsOf_ets_values oracle _ forecast_periods (d :: ms)
        d hm i r hi
      constructor
      · intro v hvj
        rw [hv.1] at hvj
        have hvmem := List.getElem?_mem hvj
        unfold generate_ets_forecast at hvmem
        obtain ⟨j, -, rfl⟩ := List.mem_map.mp hvmem
        exact le_max_right _ 0
      · intro v hvd
        rw [hv.2] at hvd
        have hvmem := List.getElem?_mem hvd
        unfold generate_ets_forecast at hvmem
        obtain ⟨j, -, rfl⟩ := List.mem_map.mp hvmem
        exact le_max_right _ 0
    · constructor <;>
        · intro v hvj
          simp [methodJoins, methodDrops, hs, he] at hvj

/-- Witness for C8 on the sample summary with the simple method. -/
theorem C8_witness :
    (((generate_business_forecast_from_summary zeroOracle sampleSummary 1 5
        ["simple"] sampleNow).getD []).filter (·.isForecast)).all
      (fun r => Option.all (fun v => decide (0 ≤ v)) (methodJoins "simple" r)
        && Option.all (fun v => decide (0 ≤ v)) (methodDrops "simple" r))
      = true := by
  rw [List.all_eq_true]
  intro r hr
  have hmem : r ∈ (generate_business_forecast_from_summary zeroOracle
      sampleSummary 1 5 ["simple"] sampleNow).getD [] :=
    List.mem_of_mem_filter hr
  have hflag : r.isForecast = true := (List.mem_filter.mp hr).2
  have h := C8_forecasts_nonneg zeroOracle sampleSummary 1 5 "simple" []
    sampleNow "simple"
    ((generate_business_forecast_from_summary zeroOracle sampleSummary 1 5
        ["simple"] sampleNow).getD [])
    (by
      have h1 : (generate_business_forecast_from_summary zeroOracle
          sampleSummary 1 5 ["simple"] sampleNow).isSome = true := by decide
      cases heq : generate_business_forecast_from_summary zeroOracle
          sampleSummary 1 5 ["simple"] sampleNow with
      | none => simp [heq] at h1
      | some l => simp [heq])
    (by decide) (by decide) r hmem hflag
  rw [Bool.and_eq_true]
  constructor
  · cases hj : methodJoins "simple" r with
    | none => rfl
    | some v => simpa [Option.all] using h.1 v hj
  · cases hd : methodDrops "simple" r with
    | none => rfl
    | some v => simpa [Option.all] using h.2 v hd
